import Mathlib

/-!
Verification development for the RAGQuery retrieval subsystem.

The Python sources (hybrid_search.py, vector_database.py, text_processor.py,
qa_system.py, llm_handler.py) are shallowly embedded below. Machine floats
are modelled as `Int` scores (the claims under study are score-value
independent except for the constant 1.0, modelled as `(1 : Int)`), Python
lists/dicts as Lean lists/association lists, and the fixed regular
expressions of the sources as values of a small executable regex engine
`RE` with Python `re` semantics (leftmost match, greedy backtracking,
ASCII classes, `\b` word boundaries, non-overlapping `findall`).
`list(set(xs))` is modelled as `xs.dedup`: every consumer in the sources
is order-insensitive (membership, iteration into a set union), and CPython
set iteration order is unspecified.
-/

set_option linter.unusedVariables false
set_option maxRecDepth 100000

namespace RAGQuery

/-- ASCII letter test, Python `[A-Za-z]` and (for ASCII input) `str.isalpha`. -/
def isAlphaChar (c : Char) : Bool := c.isAlpha

/-- ASCII digit test, Python `\d` and (for ASCII input) `str.isdigit`. -/
def isDigitChar (c : Char) : Bool := c.isDigit

/-- Python `\s` (and `str.isspace` on ASCII): space, tab, newline, CR, VT, FF. -/
def isSpaceChar (c : Char) : Bool :=
  c = ' ' || c = '\t' || c = '\n' || c = '\r' || c = '\x0b' || c = '\x0c'

/-- Python `\w` restricted to ASCII input: letters, digits, underscore. -/
def isWordChar (c : Char) : Bool := c.isAlphanum || c = '_'

/-- Character classes appearing in the sources' regular expressions. -/
inductive CClass
  | digit
  | alpha
  | space
  | word
deriving DecidableEq

def classMatch : CClass → Char → Bool
  | .digit, c => isDigitChar c
  | .alpha, c => isAlphaChar c
  | .space, c => isSpaceChar c
  | .word, c => isWordChar c

/-- Abstract syntax of the (few, fixed) regular expressions used by the repo. -/
inductive RE
  | eps
  | cls (c : CClass)
  | chr (c : Char)
  | lit (s : List Char) (ci : Bool)
  | altLit (ss : List (List Char)) (ci : Bool)
  | seq (a b : RE)
  | rep (lo hi : Nat) (r : RE)
  | plus (r : RE)
  | star (r : RE)
  | opt (r : RE)
  | bnd
deriving DecidableEq

/-- Character comparison, optionally case-insensitive (re.IGNORECASE). -/
def charEqCI (ci : Bool) (patc inc : Char) : Bool :=
  if ci then patc.toLower = inc.toLower else patc = inc

/-- Match a literal string against the head of the input, threading the
previously consumed character (for later word-boundary checks). -/
def litMatch (ci : Bool) : List Char → Option Char → List Char →
    Option (Option Char × List Char)
  | [], p, s => some (p, s)
  | c :: cs, p, s =>
    match s with
    | [] => none
    | x :: xs => if charEqCI ci c x then litMatch ci cs (some x) xs else none

/-- Greedy bounded repetition: all outcomes in backtracking priority order
(consume one more copy first, then stop when the minimum is reached). -/
def repGo (m : Option Char → List Char → List (Option Char × List Char)) :
    Nat → Nat → Option Char → List Char → List (Option Char × List Char)
  | lo, 0, p, s => if lo = 0 then [(p, s)] else []
  | lo, hi + 1, p, s =>
    ((m p s).flatMap (fun q => repGo m (lo - 1) hi q.1 q.2)) ++
      (if lo = 0 then [(p, s)] else [])

def isWordOpt : Option Char → Bool
  | none => false
  | some c => isWordChar c

/-- All ways a regex can match a prefix of the input, in Python backtracking
priority order; each outcome is (last consumed char, remaining input). The
head of the list is the match Python's engine commits to. -/
def matchRE : RE → Option Char → List Char → List (Option Char × List Char)
  | .eps, p, s => [(p, s)]
  | .cls c, p, s =>
    match s with
    | [] => []
    | x :: xs => if classMatch c x then [(some x, xs)] else []
  | .chr c, p, s =>
    match s with
    | [] => []
    | x :: xs => if x = c then [(some x, xs)] else []
  | .lit l ci, p, s =>
    match litMatch ci l p s with
    | some r => [r]
    | none => []
  | .altLit ls ci, p, s =>
    ls.flatMap (fun l =>
      match litMatch ci l p s with
      | some r => [r]
      | none => [])
  | .seq a b, p, s => (matchRE a p s).flatMap (fun q => matchRE b q.1 q.2)
  | .rep lo hi r, p, s => repGo (matchRE r) lo hi p s
  | .plus r, p, s => repGo (matchRE r) 1 s.length p s
  | .star r, p, s => repGo (matchRE r) 0 s.length p s
  | .opt r, p, s => (matchRE r p s) ++ [(p, s)]
  | .bnd, p, s => if isWordOpt p != isWordOpt s.head? then [(p, s)] else []

/-- The match Python commits to at this position, if any. -/
def matchFirst (r : RE) (p : Option Char) (s : List Char) :
    Option (Option Char × List Char) :=
  (matchRE r p s).head?

/-- Worker for `re.findall`: scan left to right, emit each non-overlapping
match, resume after it. Fuel is an upper bound on the scan length; none of
the repo's patterns can match the empty string, so the zero-width guard is
never taken (Python would emit an empty match and advance by one). -/
def findAllGo (r : RE) : Nat → Option Char → List Char → List (List Char)
  | 0, _, _ => []
  | fuel + 1, p, s =>
    match matchFirst r p s with
    | some (p', rest) =>
      let n := s.length - rest.length
      if n = 0 then
        match s with
        | [] => []
        | c :: cs => findAllGo r fuel (some c) cs
      else s.take n :: findAllGo r fuel p' rest
    | none =>
      match s with
      | [] => []
      | c :: cs => findAllGo r fuel (some c) cs

/-- Python `re.findall(pattern, s)` for a pattern without groups. -/
def reFindAll (r : RE) (s : List Char) : List (List Char) :=
  findAllGo r (s.length + 1) none s

def reFindAllS (r : RE) (s : String) : List String :=
  (reFindAll r s.data).map String.mk

/-- Python `re.search(pattern, s)` truthiness. -/
def reSearchS (r : RE) (s : String) : Bool :=
  !(reFindAll r s.data).isEmpty

/-- Python `re.match(pattern, s)` truthiness (anchored at the start only). -/
def reMatchStartS (r : RE) (s : String) : Bool :=
  !(matchRE r none s.data).isEmpty

/-- Python `re.findall` for a pattern of shape `pre (grp) post` with one
group: returns the text matched by the group of each non-overlapping match. -/
def findAllGroupGo (pre grp post : RE) :
    Nat → Option Char → List Char → List (List Char)
  | 0, _, _ => []
  | fuel + 1, p, s =>
    match ((matchRE pre p s).flatMap (fun q =>
        (matchRE (.seq grp post) q.1 q.2).map (fun w => (q.2, w)))).head? with
    | some (gstart, p2, rest) =>
      let n := s.length - rest.length
      if n = 0 then
        match s with
        | [] => []
        | c :: cs => findAllGroupGo pre grp post fuel (some c) cs
      else
        gstart.take (gstart.length - rest.length) ::
          findAllGroupGo pre grp post fuel p2 rest
    | none =>
      match s with
      | [] => []
      | c :: cs => findAllGroupGo pre grp post fuel (some c) cs

def reFindAllGroupS (pre grp post : RE) (s : String) : List String :=
  (findAllGroupGo pre grp post (s.data.length + 1) none s.data).map String.mk

/-- Python `re.findall` for the fallback patterns `\b(g1)sep(g2)\b` with two
groups: returns the pair of group texts of each match. -/
def findAllPair2Go (g1 sep g2 : RE) :
    Nat → Option Char → List Char → List (List Char × List Char)
  | 0, _, _ => []
  | fuel + 1, p, s =>
    match ((matchRE .bnd p s).flatMap (fun q0 =>
        (matchRE g1 q0.1 q0.2).flatMap (fun q1 =>
          (matchRE sep q1.1 q1.2).flatMap (fun q2 =>
            (matchRE (.seq g2 .bnd) q2.1 q2.2).map (fun q3 =>
              (q0.2, q1.2, q2.2, q3)))))).head? with
    | some (s0, s1, s2, p3, rest) =>
      let n := s.length - rest.length
      if n = 0 then
        match s with
        | [] => []
        | c :: cs => findAllPair2Go g1 sep g2 fuel (some c) cs
      else
        (s0.take (s0.length - s1.length), s2.take (s2.length - rest.length)) ::
          findAllPair2Go g1 sep g2 fuel p3 rest
    | none =>
      match s with
      | [] => []
      | c :: cs => findAllPair2Go g1 sep g2 fuel (some c) cs

def reFindAllPair2S (g1 sep g2 : RE) (s : String) : List (String × String) :=
  (findAllPair2Go g1 sep g2 (s.data.length + 1) none s.data).map
    (fun q => (String.mk q.1, String.mk q.2))

/-- Right-nested sequencing of a pattern list. -/
def seqs : List RE → RE
  | [] => .eps
  | [r] => r
  | r :: rs => .seq r (seqs rs)

/-! String helpers mirroring Python's `str` methods. -/

def toLowerL (l : List Char) : List Char := l.map Char.toLower

def toLowerS (s : String) : String := String.mk (toLowerL s.data)

/-- Python `str.capitalize()`: first character upper-cased, rest lower-cased. -/
def pyCapitalize (s : String) : String :=
  match s.data with
  | [] => ""
  | c :: cs => String.mk (c.toUpper :: toLowerL cs)

def isPrefixL : List Char → List Char → Bool
  | [], _ => true
  | _ :: _, [] => false
  | c :: cs, x :: xs => c = x && isPrefixL cs xs

/-- Python `needle in hay` substring test. -/
def containsSubL (needle : List Char) : List Char → Bool
  | [] => isPrefixL needle []
  | x :: xs => isPrefixL needle (x :: xs) || containsSubL needle xs

def containsSubS (needle hay : String) : Bool := containsSubL needle.data hay.data

/-- Python `s.split(sep)` for a one-character separator (keeps empty pieces). -/
def splitOnCharL (c : Char) : List Char → List (List Char)
  | [] => [[]]
  | x :: xs =>
    match splitOnCharL c xs with
    | [] => if x = c then [[], []] else [[x]]
    | h :: t => if x = c then [] :: h :: t else (x :: h) :: t

def splitOnCharS (c : Char) (s : String) : List String :=
  (splitOnCharL c s.data).map String.mk

/-- Worker for Python's no-argument `str.split()`. -/
def splitWsGo : List Char → List Char → List (List Char)
  | [], cur => if cur.isEmpty then [] else [cur.reverse]
  | c :: cs, cur =>
    if isSpaceChar c then
      if cur.isEmpty then splitWsGo cs [] else cur.reverse :: splitWsGo cs []
    else splitWsGo cs (c :: cur)

/-- Python `s.split()`: split on whitespace runs, dropping empty pieces. -/
def pySplitWsS (s : String) : List String :=
  (splitWsGo s.data []).map String.mk

/-- Python `str.strip()` restricted to ASCII whitespace. -/
def pyStripL (l : List Char) : List Char :=
  ((l.dropWhile isSpaceChar).reverse.dropWhile isSpaceChar).reverse

def pyStripS (s : String) : String := String.mk (pyStripL s.data)

/-- Python `str.isalpha()`: non-empty and all letters. -/
def pyIsAlphaS (s : String) : Bool := !s.data.isEmpty && s.data.all isAlphaChar

/-- Python `str.isdigit()`: non-empty and all digits. -/
def pyIsDigitS (s : String) : Bool := !s.data.isEmpty && s.data.all isDigitChar

/-- Worker for Python `str.replace(old, new)` (all occurrences, left to
right, non-overlapping; the inserted text is not rescanned). Fuel bounds
the scan by the input length; `old` is never empty at the call sites. -/
def replaceAllGo (old new : List Char) : Nat → List Char → List Char
  | 0, s => s
  | _ + 1, [] => []
  | fuel + 1, x :: xs =>
    if !old.isEmpty && isPrefixL old (x :: xs) then
      new ++ replaceAllGo old new fuel ((x :: xs).drop old.length)
    else x :: replaceAllGo old new fuel xs

def pyReplaceAllS (s old new : String) : String :=
  String.mk (replaceAllGo old.data new.data s.data.length s.data)

/-- Python `sep.join(parts)`. -/
def joinSepS (sep : String) : List String → String
  | [] => ""
  | [x] => x
  | x :: xs => x ++ sep ++ joinSepS sep xs

/-- Association-list lookup, Python `dict[key]` on a populated key. -/
def lookupA {α : Type} : List (String × α) → String → Option α
  | [], _ => none
  | (k, v) :: rest, key => if k = key then some v else lookupA rest key

/-- Python `key in dict`. -/
def containsKeyA {α : Type} (d : List (String × α)) (key : String) : Bool :=
  (lookupA d key).isSome

/-!
## hybrid_search.py
-/

/-- A processed chunk record (`chunk_data` dict in the sources; embeddings
are integer vectors in this model). -/
structure Chunk where
  chunk_id : String
  filename : String
  content : String
  embedding : List Int
  chunk_index : Nat
deriving DecidableEq

/-- Inverted index mapping (a `collections.defaultdict(list)`). -/
abbrev DDict := List (String × List String)

/-- `defaultdict(list)` mutation `d[key].append(v)`. -/
def ddAppend : DDict → String → String → DDict
  | [], key, v => [(key, [v])]
  | (k, vs) :: rest, key, v =>
    if k = key then (k, vs ++ [v]) :: rest else (k, vs) :: ddAppend rest key v

/-- `defaultdict(list)` subscript read `d[key]`: returns the stored list,
inserting an empty list (a mutation!) when the key is absent. -/
def ddGetItem (d : DDict) (key : String) : List String × DDict :=
  match lookupA d key with
  | some vs => (vs, d)
  | none => ([], d ++ [(key, [])])

/-- Plain dict write `d[key] = v` (`chunks_by_id`). -/
def dictSet : List (String × Chunk) → String → Chunk → List (String × Chunk)
  | [], key, v => [(key, v)]
  | (k, c) :: rest, key, v =>
    if k = key then (k, v) :: rest else (k, c) :: dictSet rest key v

/-- State of `HybridSearchEngine`. -/
structure HybridSearchEngine where
  keyword_index : DDict
  date_index : DDict
  chunks_by_id : List (String × Chunk)
deriving DecidableEq

/-- `HybridSearchEngine.__init__`. -/
def HybridSearchEngine.init : HybridSearchEngine := ⟨[], [], []⟩

/-- Indexing pattern 1: `\b\d{1,2}-[A-Za-z]{3,9}\b` (6-Sept, 15-December). -/
def hs_p1 : RE :=
  seqs [.bnd, .rep 1 2 (.cls .digit), .chr '-', .rep 3 9 (.cls .alpha), .bnd]

/-- Indexing pattern 2: `\b[A-Za-z]{3,9}\s+\d{1,2}\b` (Sept 6, December 15). -/
def hs_p2 : RE :=
  seqs [.bnd, .rep 3 9 (.cls .alpha), .plus (.cls .space), .rep 1 2 (.cls .digit), .bnd]

/-- Indexing pattern 3: `\b\d{1,2}/\d{1,2}/\d{2,4}\b` (6/9/2024). -/
def hs_p3 : RE :=
  seqs [.bnd, .rep 1 2 (.cls .digit), .chr '/', .rep 1 2 (.cls .digit), .chr '/',
    .rep 2 4 (.cls .digit), .bnd]

/-- Indexing pattern 4: `\b[A-Za-z]{3,9}\s+\d{1,2},?\s+\d{4}\b`
(September 6, 2024). -/
def hs_p4 : RE :=
  seqs [.bnd, .rep 3 9 (.cls .alpha), .plus (.cls .space), .rep 1 2 (.cls .digit),
    .opt (.chr ','), .plus (.cls .space), .rep 4 4 (.cls .digit), .bnd]

/-- The raw `dates` list of `extract_dates`: matches of the four indexing
patterns, in pattern order. -/
def extractDatesRaw (text : String) : List String :=
  reFindAllS hs_p1 text ++ reFindAllS hs_p2 text ++ reFindAllS hs_p3 text ++
    reFindAllS hs_p4 text

/-- The `month_mappings` table of `generate_date_variants`. -/
def month_mappings : List (String × List String) :=
  [("jan", ["january", "jan"]),
   ("feb", ["february", "feb"]),
   ("mar", ["march", "mar"]),
   ("apr", ["april", "apr"]),
   ("may", ["may"]),
   ("jun", ["june", "jun"]),
   ("jul", ["july", "jul"]),
   ("aug", ["august", "aug"]),
   ("sep", ["september", "sept", "sep"]),
   ("oct", ["october", "oct"]),
   ("nov", ["november", "nov"]),
   ("dec", ["december", "dec"])]

/-- The six f-string forms emitted per table month variant in the hyphen
branch of `generate_date_variants`. -/
def hyphenForms (day mv : String) : List String :=
  [day ++ "-" ++ mv, day ++ " " ++ mv, mv ++ " " ++ day,
   day ++ "-" ++ pyCapitalize mv, day ++ " " ++ pyCapitalize mv,
   pyCapitalize mv ++ " " ++ day]

/-- The six f-string forms emitted by the space branch of
`generate_date_variants` (both of its sub-branches emit the same forms). -/
def spaceForms (day month : String) : List String :=
  [day ++ "-" ++ month, day ++ " " ++ month, month ++ " " ++ day,
   day ++ "-" ++ toLowerS month, day ++ " " ++ toLowerS month,
   toLowerS month ++ " " ++ day]

/-- `HybridSearchEngine.generate_date_variants` (hybrid_search.py:51-115).
The trailing `list(set(variants))` is modelled by `dedup`. -/
def generate_date_variants (date_str : String) : List String :=
  let variants := [date_str]
  let variants :=
    if date_str.data.contains '-' then
      match splitOnCharS '-' date_str with
      | [day, month] =>
        let month_lower := String.mk ((toLowerS month).data.take 3)
        match lookupA month_mappings month_lower with
        | some mvs => variants ++ mvs.flatMap (hyphenForms day)
        | none => variants
      | _ => variants
    else if date_str.data.contains ' ' then
      match pySplitWsS (pyReplaceAllS date_str "," "") with
      | p0 :: p1 :: _ =>
        if pyIsAlphaS p0 && pyIsDigitS p1 then variants ++ spaceForms p1 p0
        else if pyIsDigitS p0 && pyIsAlphaS p1 then variants ++ spaceForms p0 p1
        else variants
      | _ => variants
    else variants
  variants.dedup

/-- `HybridSearchEngine.extract_dates` (hybrid_search.py:29-49). -/
def extract_dates (text : String) : List String :=
  ((extractDatesRaw text).flatMap generate_date_variants).dedup

/-- The `technical_terms` vocabulary of `extract_keywords`. -/
def technical_terms : List String :=
  ["drilling", "hole", "section", "wbm", "bbls", "sweep", "circulate",
   "weight", "trip", "shoe", "rams", "bottom", "pill", "gyro", "pull"]

/-- `HybridSearchEngine.extract_keywords` (hybrid_search.py:164-176). -/
def extract_keywords (text : String) : List String :=
  technical_terms.filter (fun term => containsSubS term text)

/-- `HybridSearchEngine.index_chunk` (hybrid_search.py:11-27). -/
def HybridSearchEngine.index_chunk (e : HybridSearchEngine) (chunk_data : Chunk) :
    HybridSearchEngine :=
  let chunk_id := chunk_data.chunk_id
  let content := toLowerS chunk_data.content
  let e1 : HybridSearchEngine :=
    { e with chunks_by_id := dictSet e.chunks_by_id chunk_id chunk_data }
  let dates := extract_dates chunk_data.content
  let e2 : HybridSearchEngine :=
    { e1 with date_index :=
        dates.foldl (fun di date => ddAppend di (toLowerS date) chunk_id) e1.date_index }
  let keywords := extract_keywords content
  { e2 with keyword_index :=
      keywords.foldl (fun ki kw => ddAppend ki kw chunk_id) e2.keyword_index }

/-- Query pattern 3 of `search_by_date`: `\b\d{1,2}\s+[A-Za-z]{3,9}\b`. -/
def hs_q3 : RE :=
  seqs [.bnd, .rep 1 2 (.cls .digit), .plus (.cls .space), .rep 3 9 (.cls .alpha), .bnd]

/-- Prefix `\bon\s+` of query patterns 4 and 5 (case-insensitive `on`). -/
def hs_on : RE := seqs [.bnd, .lit ['o', 'n'] true, .plus (.cls .space)]

/-- Group of query pattern 4: `\d{1,2}-[A-Za-z]{3,9}`. -/
def hs_q4_grp : RE := seqs [.rep 1 2 (.cls .digit), .chr '-', .rep 3 9 (.cls .alpha)]

/-- Group of query pattern 5: `[A-Za-z]{3,9}\s+\d{1,2}`. -/
def hs_q5_grp : RE :=
  seqs [.rep 3 9 (.cls .alpha), .plus (.cls .space), .rep 1 2 (.cls .digit)]

/-- The `found_dates` built from the five explicit query patterns of
`search_by_date` (hybrid_search.py:122-136), in pattern order. For the two
grouped patterns `re.findall` returns the group texts (strings, not tuples,
so the code's `isinstance(matches[0], tuple)` test is always false and the
`else` branch extends with those strings). -/
def hsQueryDates (query : String) : List String :=
  reFindAllS hs_p1 query ++ reFindAllS hs_p2 query ++ reFindAllS hs_q3 query ++
    reFindAllGroupS hs_on hs_q4_grp .bnd query ++
    reFindAllGroupS hs_on hs_q5_grp .bnd query

/-- Month-name alternation of the fallback patterns, in source order. -/
def monthAltNames : List String :=
  ["jan", "feb", "mar", "apr", "may", "jun", "jul", "aug", "sep", "oct", "nov",
   "dec", "january", "february", "march", "april", "may", "june", "july",
   "august", "september", "october", "november", "december"]

def monthAltRE : RE := .altLit (monthAltNames.map String.data) false

/-- Fallback extraction of `search_by_date` when no explicit pattern fired
(hybrid_search.py:139-151), run on the lowercased query:
`\b(month)\s*(\d{1,2})\b` and `\b(\d{1,2})\s*(month)\b`. -/
def hsFallbackDates (query_lower : String) : List String :=
  (reFindAllPair2S monthAltRE (.star (.cls .space)) (.rep 1 2 (.cls .digit))
      query_lower).map (fun q => q.1 ++ " " ++ q.2) ++
    (reFindAllPair2S (.rep 1 2 (.cls .digit)) (.star (.cls .space)) monthAltRE
      query_lower).map (fun q => q.1 ++ " " ++ q.2)

/-- One step of the inner loop of `search_by_date`: look a variant up in the
date index, guarded by `variant_lower in self.date_index` (the guard is what
keeps the `defaultdict` read from inserting an empty entry). -/
def sbdInner (st : List String × DDict) (variant : String) : List String × DDict :=
  let variant_lower := toLowerS variant
  if containsKeyA st.2 variant_lower then
    let r := ddGetItem st.2 variant_lower
    (st.1 ++ r.1, r.2)
  else st

/-- One step of the outer loop of `search_by_date` over `found_dates`. -/
def sbdOuter (st : List String × DDict) (date_term : String) : List String × DDict :=
  (generate_date_variants date_term).foldl sbdInner st

/-- `HybridSearchEngine.search_by_date` (hybrid_search.py:117-162), with the
date index threaded explicitly so that the (absence of) mutation through the
`defaultdict` is part of the model. The returned `matching_chunks` set is a
deduplicated list. -/
def HybridSearchEngine.searchByDateState (e : HybridSearchEngine) (query : String) :
    List String × HybridSearchEngine :=
  let query_lower := toLowerS query
  let found_dates := hsQueryDates query
  let found_dates :=
    if found_dates.isEmpty then hsFallbackDates query_lower else found_dates
  let res := found_dates.foldl sbdOuter ([], e.date_index)
  (res.1.dedup, { e with date_index := res.2 })

/-- The return value of `search_by_date`. -/
def HybridSearchEngine.search_by_date (e : HybridSearchEngine) (query : String) :
    List String :=
  (e.searchByDateState query).1

/-!
## vector_database.py

`faiss.IndexFlatIP` is modelled as the stored vector list with exact
inner-product search. Floating point is abstracted to `Int` scores and
`faiss.normalize_L2` (a pure rescaling that does not change result counts,
identities, or — for the claims below — anything inspected) is omitted.
Faiss pads `search` results with index `-1` (and a sentinel score) when
fewer than `k` vectors are stored; `padScore` stands for that sentinel.
-/

/-- Stand-in for the float sentinel score faiss puts on padding entries. -/
def padScore : Int := -(3402823 : Int)

structure FaissIndexFlatIP where
  d : Nat
  xb : List (List Int)
deriving DecidableEq

def dotI (a b : List Int) : Int := (List.zipWith (· * ·) a b).sum

/-- Stable insertion sort by descending score (faiss returns equal scores in
index order). -/
def insertDesc (x : Int × Int) : List (Int × Int) → List (Int × Int)
  | [] => [x]
  | y :: ys => if y.1 < x.1 then x :: y :: ys else y :: insertDesc x ys

def sortDesc : List (Int × Int) → List (Int × Int)
  | [] => []
  | x :: xs => insertDesc x (sortDesc xs)

/-- `faiss.IndexFlatIP.search`: top-`k` (score, index) pairs, padded with
`(padScore, -1)` entries when fewer than `k` vectors are stored. -/
def FaissIndexFlatIP.search (ix : FaissIndexFlatIP) (q : List Int) (k : Nat) :
    List (Int × Int) :=
  let scored := (ix.xb.enum.map (fun v => (dotI q v.2, (v.1 : Int))))
  let sorted := sortDesc scored
  sorted.take k ++ List.replicate (k - sorted.length) (padScore, -1)

def FaissIndexFlatIP.add (ix : FaissIndexFlatIP) (vs : List (List Int)) :
    FaissIndexFlatIP :=
  { ix with xb := ix.xb ++ vs }

/-- Python list subscript `l[i]` with negative-index wrap-around; `none` is
an `IndexError`. -/
def pyGet {α : Type} (l : List α) (i : Int) : Option α :=
  if 0 ≤ i then l.get? i.toNat
  else if (-i) ≤ (l.length : Int) then l.get? (l.length - (-i).toNat) else none

structure VectorDatabase where
  dimension : Nat
  index : FaissIndexFlatIP
  chunks : List Chunk
deriving DecidableEq

/-- `VectorDatabase.__init__(dimension=384)`. -/
def VectorDatabase.init (dimension : Nat) : VectorDatabase :=
  ⟨dimension, ⟨dimension, []⟩, []⟩

/-- `VectorDatabase.add_chunks` (vector_database.py:14-22). -/
def VectorDatabase.add_chunks (db : VectorDatabase) (processed_chunks : List Chunk) :
    VectorDatabase :=
  { db with
    index := db.index.add (processed_chunks.map (·.embedding)),
    chunks := db.chunks ++ processed_chunks }

/-- `VectorDatabase.search` (vector_database.py:24-36). The loop keeps every
(score, idx) pair with `idx < len(self.chunks)` — note that faiss's `-1`
padding indices pass this guard and `self.chunks[idx]` then wraps around to
the last chunk. The `none` case of `pyGet` (an `IndexError` in Python) is
unreachable for faiss outputs, which are always `≥ -1`. -/
def VectorDatabase.search (db : VectorDatabase) (query_embedding : List Int)
    (k : Nat) : List (Chunk × Int) :=
  let pairs := db.index.search query_embedding k
  pairs.foldr
    (fun si acc =>
      if si.2 < (db.chunks.length : Int) then
        match pyGet db.chunks si.2 with
        | some c => (c, si.1) :: acc
        | none => acc
      else acc) []

/-- The pickled blob written by `VectorDatabase.save` (vector_database.py:38-46):
serialized index, chunk array, and dimension. -/
structure SavedBlob where
  index : FaissIndexFlatIP
  chunks : List Chunk
  dimension : Nat
deriving DecidableEq

/-- `VectorDatabase.save`. -/
def VectorDatabase.save (db : VectorDatabase) : SavedBlob :=
  ⟨db.index, db.chunks, db.dimension⟩

/-- `VectorDatabase.load` (vector_database.py:48-54): unconditionally adopts
the blob's index, chunks and dimension — there is no validation of any kind
against the in-memory state. -/
def VectorDatabase.load (db : VectorDatabase) (data : SavedBlob) : VectorDatabase :=
  { db with index := data.index, chunks := data.chunks, dimension := data.dimension }

/-- `VectorDatabase.get_stats` (vector_database.py:56-62). -/
def VectorDatabase.get_stats (db : VectorDatabase) : Nat × Nat × Nat :=
  (db.chunks.length, ((db.chunks.map (·.filename)).dedup).length, db.dimension)

/-!
## llm_handler.py

The HTTP transport and the HuggingFace pipeline are external effects; a
single request's outcome is modelled by `HttpResult`. `generate_response`
is the pure function from that outcome to the returned string.
-/

/-- Outcome of the POST to Ollama's `/api/generate` (or of the HF pipeline
call): a 200 response whose JSON `response` field is `body`, a non-200
response, or a raised exception (unreachable service, timeout, ...). -/
inductive HttpResult
  | ok (body : String)
  | httpError (code : Nat) (text : String)
  | exc (msg : String)
deriving DecidableEq

/-- `OllamaLLM.generate_response` (llm_handler.py:43-69) as a function of the
request outcome. -/
def OllamaLLM.generate_response : HttpResult → String
  | .ok body => body
  | .httpError code text => "Error: " ++ toString code ++ " - " ++ text
  | .exc msg => "Error generating response: " ++ msg

/-- Outcome of the local HuggingFace `pipeline` call: generated text (the
code returns it with the prompt sliced off and stripped) or an exception. -/
inductive PipelineResult
  | ok (text : String)
  | exc (msg : String)
deriving DecidableEq

/-- `HuggingFaceLLM.generate_response` (llm_handler.py:81-93): the pipeline
either yields generated text or raises. -/
def HuggingFaceLLM.generate_response : PipelineResult → String
  | .ok text => text
  | .exc msg => "Error generating response: " ++ msg

/-!
## text_processor.py
-/

/-- Fourth `TextProcessor` date pattern: `\b\d{4}-\d{2}-\d{2}\b` (2024-09-06). -/
def tp_p4 : RE :=
  seqs [.bnd, .rep 4 4 (.cls .digit), .chr '-', .rep 2 2 (.cls .digit), .chr '-',
    .rep 2 2 (.cls .digit), .bnd]

/-- `TextProcessor.date_patterns` (text_processor.py:11-16): the first three
coincide with the hybrid engine's indexing patterns. -/
def tpDatePatterns : List RE := [hs_p1, hs_p2, hs_p3, tp_p4]

/-- The unanchored pattern of `expand_date_formats`'s `re.match`:
`\d{1,2}-[A-Za-z]{3,9}` (no word boundaries, start-anchored only). -/
def tp_p1_core : RE := seqs [.rep 1 2 (.cls .digit), .chr '-', .rep 3 9 (.cls .alpha)]

/-- `TextProcessor.expand_date_formats` (text_processor.py:33-47). Only the
`D-Month` shape is handled; every other input yields the empty list. The
`day.endswith('1')` conditional emits the same string in both branches. The
unpacking `day, month = date_str.split('-')` would raise for inputs with a
hyphen count other than one; such inputs never reach the branch because the
anchored `re.match` filters them, and the model returns `[]` there. -/
def expand_date_formats (date_str : String) : List String :=
  if reMatchStartS tp_p1_core date_str then
    match splitOnCharS '-' date_str with
    | [day, month] =>
      ([month ++ " " ++ day,
        month ++ " " ++ day ++ "th",
        (if isPrefixL "sep".data (toLowerS month).data then "September " ++ day
         else month ++ " " ++ day),
        day ++ " " ++ month,
        date_str]).dedup
    | _ => []
  else []

/-- The inline annotation `f"{match} ({' | '.join(normalized_dates)})"`. -/
def dateAnnotation (m : String) : String :=
  m ++ " (" ++ joinSepS " | " (expand_date_formats m) ++ ")"

/-- The `date_replacements` dict of `normalize_dates`: keyed by match text,
insertion-ordered, duplicate keys collapsed (the recomputed value is
identical, so keeping the first insertion is faithful). -/
def dateReplacements (text : String) : List (String × String) :=
  ((tpDatePatterns.flatMap (fun p => reFindAllS p text)).dedup.map
    (fun m => (m, dateAnnotation m)))

/-- `TextProcessor.normalize_dates` (text_processor.py:18-31): every pattern
match is replaced (all occurrences, iteratively over the dict) by its
annotated form. -/
def normalize_dates (text : String) : String :=
  (dateReplacements text).foldl (fun t r => pyReplaceAllS t r.1 r.2) text

/-- Sentence-end characters of the chunker's split pattern `(?<=[.!?])\s+`. -/
def isSentEnd (c : Char) : Bool := c = '.' || c = '!' || c = '?'

/-- Worker for `re.split(r'(?<=[.!?])\s+', text)`: `p` is the previous
character, `inSep` tracks whether we are inside a (maximal) whitespace
separator run, `cur` the current piece reversed. -/
def splitSentGo : Option Char → Bool → List Char → List Char → List (List Char)
  | p, inSep, [], cur => [cur.reverse]
  | p, inSep, c :: cs, cur =>
    if inSep && isSpaceChar c then splitSentGo (some c) true cs cur
    else if !inSep && isSpaceChar c && (p.map isSentEnd).getD false then
      cur.reverse :: splitSentGo (some c) true cs []
    else splitSentGo (some c) false cs (c :: cur)

/-- The `sentences` list of `chunk_text_smart`. -/
def splitSentences (text : String) : List String :=
  (splitSentGo none false text.data []).map String.mk

/-- Python `re.search` of any `TextProcessor` date pattern in a sentence. -/
def sentenceHasDate (sentence : String) : Bool :=
  tpDatePatterns.any (fun p => reSearchS p sentence)

/-- Loop state of `chunk_text_smart`: emitted chunks, the running buffer
`current_chunk`, and `current_date_context`. -/
structure ChunkLoopState where
  chunks : List String
  current_chunk : String
  current_date_context : String
deriving DecidableEq

/-- One iteration of the sentence loop of `chunk_text_smart`
(text_processor.py:58-74). -/
def chunkStep (chunk_size overlap : Nat) (st : ChunkLoopState) (sentence : String) :
    ChunkLoopState :=
  let ctx := if sentenceHasDate sentence then sentence else st.current_date_context
  if st.current_chunk.data.length + sentence.data.length > chunk_size &&
      !st.current_chunk.data.isEmpty then
    let final_chunk :=
      if !ctx.data.isEmpty && !containsSubS ctx st.current_chunk then
        "Date context: " ++ ctx ++ "\n" ++ st.current_chunk
      else st.current_chunk
    let overlap_text :=
      if st.current_chunk.data.length > overlap then
        String.mk (st.current_chunk.data.drop (st.current_chunk.data.length - overlap))
      else st.current_chunk
    { chunks := st.chunks ++ [pyStripS final_chunk],
      current_chunk := ctx ++ " " ++ overlap_text ++ " " ++ sentence,
      current_date_context := ctx }
  else
    { chunks := st.chunks,
      current_chunk := st.current_chunk ++ " " ++ sentence,
      current_date_context := ctx }

/-- `TextProcessor.chunk_text_smart` (text_processor.py:49-79). -/
def chunk_text_smart (text : String) (chunk_size overlap : Nat) : List String :=
  let textN := normalize_dates text
  let sentences := splitSentences textN
  let st := sentences.foldl (chunkStep chunk_size overlap) ⟨[], "", ""⟩
  if !(pyStripS st.current_chunk).data.isEmpty then
    st.chunks ++ [pyStripS st.current_chunk]
  else st.chunks

/-!
## qa_system.py

`answer_question_enhanced` is embedded with the two external capabilities —
the embedding model and the LLM — passed in as function parameters, and the
mutable system state threaded explicitly.
-/

/-- One entry of the `sources` list in the answer dict. -/
structure Source where
  filename : String
  chunk_index : Nat
  relevance_score : Int
deriving DecidableEq

/-- The answer dict returned by `answer_question_enhanced`. -/
structure QAResult where
  question : String
  answer : String
  sources : List Source
  context_used : List String
  search_method : String
  llm_used : String
deriving DecidableEq

/-- The mutable state of a `QASystem`. -/
structure QASystemState where
  vector_db : VectorDatabase
  hybrid_search : HybridSearchEngine
  llm_type : String
deriving DecidableEq

/-- The `date_indicators` list (qa_system.py:101-104). -/
def date_indicators : List String :=
  ["what was done on", "activities on", "happened on", "occurred on",
   "on ", "date", "what took place on", "events on", "work on"]

/-- The three date-shape patterns of `answer_question_enhanced`
(qa_system.py:108-112): same regexes as `hs_p1`, `hs_p2`, `hs_p3`. -/
def qaDatePatterns : List RE := [hs_p1, hs_p2, hs_p3]

/-- The date-query classification of `answer_question_enhanced`
(qa_system.py:98-115). -/
def isDateQuery (question : String) : Bool :=
  (date_indicators.any (fun ind => containsSubS ind (toLowerS question))) ||
    (qaDatePatterns.any (fun p => reSearchS p question))

/-- The date-query prompt template (qa_system.py:163-177). -/
def datePrompt (context question : String) : String :=
  "Based on the following context, answer the question about what happened on a specific date.\nPay special attention to dates and their associated activities. Look for exact date matches in the format like \"6-Sept\", \"Sept 6\", etc.\n\nContext:\n"
    ++ context ++ "\n\nQuestion: " ++ question ++
    "\n\nInstructions:\n- Look carefully for the specific date mentioned in the question\n- If you find activities on that exact date, describe them in detail\n- Include specific technical details, measurements, and procedures\n- If the date is not found, clearly state that no information is available for that specific date\n\nAnswer:"

/-- The generic prompt template (qa_system.py:179-186). -/
def genericPrompt (context question : String) : String :=
  "Based on the following context from documents, please answer the question clearly and concisely.\n\nContext:\n"
    ++ context ++ "\n\nQuestion: " ++ question ++ "\n\nAnswer:"

/-- Context assembly and answer dict construction shared by all branches of
`answer_question_enhanced` (qa_system.py:147-197). -/
def composeAnswer (llm : String → Nat → String) (qa : QASystemState)
    (question : String) (search_results : List (Chunk × Int))
    (search_method : String) (is_date_query : Bool) : QAResult :=
  let context_chunks := search_results.map (fun r => r.1.content)
  let sources := search_results.map
    (fun r => Source.mk r.1.filename r.1.chunk_index r.2)
  let context := joinSepS "\n\n" context_chunks
  let prompt :=
    if is_date_query then datePrompt context question
    else genericPrompt context question
  let answer := llm prompt 500
  ⟨question, answer, sources, context_chunks, search_method, qa.llm_type⟩

/-- `QASystem.answer_question_enhanced` (qa_system.py:96-197), returning the
answer dict together with the post-call system state. -/
def answer_question_enhanced (embed : String → List Int)
    (llm : String → Nat → String) (qa : QASystemState) (question : String)
    (top_k : Nat) : QAResult × QASystemState :=
  let is_date_query := isDateQuery question
  if is_date_query then
    let sr := qa.hybrid_search.searchByDateState question
    let date_chunk_ids := sr.1
    let qa1 : QASystemState := { qa with hybrid_search := sr.2 }
    if !date_chunk_ids.isEmpty then
      let relevant_chunks := date_chunk_ids.filterMap
        (fun cid => (lookupA qa1.hybrid_search.chunks_by_id cid).map
          (fun c => (c, (1 : Int))))
      let search_results := relevant_chunks.take top_k
      (composeAnswer llm qa1 question search_results "hybrid" is_date_query, qa1)
    else
      let question_embedding := embed question
      let search_results := qa1.vector_db.search question_embedding top_k
      (composeAnswer llm qa1 question search_results "semantic_fallback"
        is_date_query, qa1)
  else
    let question_embedding := embed question
    let search_results := qa.vector_db.search question_embedding top_k
    (composeAnswer llm qa question search_results "semantic" is_date_query, qa)

/-!
## Association-list and index lemmas
-/

theorem ddGetItem_of_contains (d : DDict) (key : String)
    (h : containsKeyA d key = true) : (ddGetItem d key).2 = d := by
  unfold containsKeyA at h
  unfold ddGetItem
  cases hl : lookupA d key with
  | none => rw [hl] at h; simp at h
  | some vs => simp

theorem sbdInner_snd (st : List String × DDict) (v : String) :
    (sbdInner st v).2 = st.2 := by
  unfold sbdInner
  by_cases h : containsKeyA st.2 (toLowerS v) = true
  · simp only [h, if_true]
    exact ddGetItem_of_contains _ _ h
  · simp [h]

theorem foldl_sbdInner_snd (l : List String) (st : List String × DDict) :
    (l.foldl sbdInner st).2 = st.2 := by
  induction l generalizing st with
  | nil => rfl
  | cons x xs ih => rw [List.foldl_cons, ih, sbdInner_snd]

theorem sbdOuter_snd (st : List String × DDict) (t : String) :
    (sbdOuter st t).2 = st.2 :=
  foldl_sbdInner_snd _ _

theorem foldl_sbdOuter_snd (l : List String) (st : List String × DDict) :
    (l.foldl sbdOuter st).2 = st.2 := by
  induction l generalizing st with
  | nil => rfl
  | cons x xs ih => rw [List.foldl_cons, ih, sbdOuter_snd]

theorem searchByDateState_snd (e : HybridSearchEngine) (q : String) :
    (e.searchByDateState q).2 = e := by
  unfold HybridSearchEngine.searchByDateState
  simp only [foldl_sbdOuter_snd]

/-!
## Claim C10: answering is read-only on the index state
-/

/-- Claim C10 (confirmed): `answer_question_enhanced` leaves the whole system
state — the vector database (chunk array and dense index) and the hybrid
engine's `keyword_index`, `date_index` and `chunks_by_id` — unchanged. In
particular the `defaultdict` reads of `search_by_date` are guarded by a
membership test, so they insert no empty entries into the date index. -/
theorem c10_answer_readonly (embed : String → List Int)
    (llm : String → Nat → String) (qa : QASystemState) (question : String)
    (top_k : Nat) :
    (answer_question_enhanced embed llm qa question top_k).2 = qa := by
  unfold answer_question_enhanced
  cases hdq : isDateQuery question with
  | false => simp [hdq]
  | true =>
    simp only [hdq, if_true]
    have hs : (qa.hybrid_search.searchByDateState question).2 = qa.hybrid_search :=
      searchByDateState_snd _ _
    by_cases he : (qa.hybrid_search.searchByDateState question).1.isEmpty = true <;>
      simp [he, hs]

/-!
## Claim C4: dimension validation on load
-/

/-- Claim C4 counterexample: loading a serialized blob with dimension 128
into a database constructed with dimension 384 is not rejected — `load`
returns normally and the database silently adopts the blob's dimension. -/
theorem c4_counterexample :
    (VectorDatabase.load (VectorDatabase.init 384)
        ⟨⟨128, []⟩, [], 128⟩).dimension = 128 ∧
      (VectorDatabase.init 384).dimension = 384 ∧ (128 : Nat) ≠ 384 :=
  ⟨rfl, rfl, by decide⟩

/-- Claim C4 (corrected): `VectorDatabase.load` performs no validation at
all — it unconditionally overwrites the in-memory index, chunk array and
dimension with the deserialized values, silently accepting any dimension
mismatch with the previous in-memory state. -/
theorem c4_load_amended (db : VectorDatabase) (data : SavedBlob) :
    VectorDatabase.load db data = ⟨data.dimension, data.index, data.chunks⟩ :=
  rfl

/-!
## Claim C5: search with k larger than the corpus
-/

/-- Claim C5 (code_bug): with one stored chunk and `k = 2`,
`VectorDatabase.search` returns two results, the single chunk duplicated:
faiss pads the missing result with index `-1`, which passes the
`idx < len(self.chunks)` guard, and Python's negative indexing then wraps
`self.chunks[-1]` around to the last chunk. The spec's claim — fewer than
`k` results, each stored chunk at most once — is the evident intent of that
guard. -/
theorem c5_search_overcount :
    ((VectorDatabase.add_chunks (VectorDatabase.init 1)
        [⟨"c0", "doc", "text", [1], 0⟩]).search [1] 2).map
        (fun r => r.1.chunk_id) = ["c0", "c0"] ∧
      (VectorDatabase.add_chunks (VectorDatabase.init 1)
        [⟨"c0", "doc", "text", [1], 0⟩]).chunks.length = 1 := by
  constructor
  · rfl
  · rfl

/-!
## Claim C6: backend failures degrade to an error-string answer
-/

/-- Claim C6 (confirmed): every generation-backend failure — non-200
response or raised exception (unreachable service, timeout) — makes
`generate_response` return a descriptive error string instead of raising,
and `answer_question_enhanced` still returns the full structured result:
its `sources` are identical to those obtained with any working backend. -/
theorem c6_backend_failure :
    (∀ code text, OllamaLLM.generate_response (.httpError code text) =
      "Error: " ++ toString code ++ " - " ++ text) ∧
    (∀ msg, OllamaLLM.generate_response (.exc msg) =
      "Error generating response: " ++ msg) ∧
    (∀ msg, HuggingFaceLLM.generate_response (.exc msg) =
      "Error generating response: " ++ msg) ∧
    (∀ (embed : String → List Int) (qa : QASystemState) (question : String)
      (top_k : Nat) (msg : String) (llm2 : String → Nat → String),
      (answer_question_enhanced embed
          (fun _ _ => OllamaLLM.generate_response (.exc msg)) qa question
          top_k).1.answer = "Error generating response: " ++ msg ∧
      (answer_question_enhanced embed
          (fun _ _ => OllamaLLM.generate_response (.exc msg)) qa question
          top_k).1.sources =
        (answer_question_enhanced embed llm2 qa question top_k).1.sources) := by
  refine ⟨fun _ _ => rfl, fun _ => rfl, fun _ => rfl, ?_⟩
  intro embed qa question top_k msg llm2
  unfold answer_question_enhanced
  cases hdq : isDateQuery question with
  | false => exact ⟨rfl, rfl⟩
  | true =>
    by_cases he : (qa.hybrid_search.searchByDateState question).1.isEmpty = true <;>
      simp [he] <;> exact ⟨rfl, rfl⟩

/-!
## Claims C3 and C8: query routing
-/

/-- The `sources` list built from dense search results. -/
def denseSources (qa : QASystemState) (qe : List Int) (top_k : Nat) : List Source :=
  (qa.vector_db.search qe top_k).map
    (fun r => Source.mk r.1.filename r.1.chunk_index r.2)

theorem composeAnswer_method (llm : String → Nat → String) (qa : QASystemState)
    (q : String) (srs : List (Chunk × Int)) (m : String) (idq : Bool) :
    (composeAnswer llm qa q srs m idq).search_method = m := rfl

theorem composeAnswer_sources (llm : String → Nat → String) (qa : QASystemState)
    (q : String) (srs : List (Chunk × Int)) (m : String) (idq : Bool) :
    (composeAnswer llm qa q srs m idq).sources =
      srs.map (fun r => Source.mk r.1.filename r.1.chunk_index r.2) := rfl

/-- The `relevant_chunks[:top_k]` list of the hybrid branch. -/
def hybridResults (qa : QASystemState) (question : String) (top_k : Nat) :
    List (Chunk × Int) :=
  (((qa.hybrid_search.searchByDateState question).1.filterMap
    (fun cid =>
      (lookupA (qa.hybrid_search.searchByDateState question).2.chunks_by_id
        cid).map (fun c => (c, (1 : Int))))).take top_k)

theorem aqe_hybrid_eq (embed : String → List Int) (llm : String → Nat → String)
    (qa : QASystemState) (question : String) (top_k : Nat)
    (hdq : isDateQuery question = true)
    (he : (qa.hybrid_search.searchByDateState question).1.isEmpty = false) :
    (answer_question_enhanced embed llm qa question top_k).1 =
      composeAnswer llm
        { qa with hybrid_search := (qa.hybrid_search.searchByDateState question).2 }
        question (hybridResults qa question top_k) "hybrid" true := by
  simp [answer_question_enhanced, hdq, he, hybridResults]

theorem aqe_fallback_eq (embed : String → List Int) (llm : String → Nat → String)
    (qa : QASystemState) (question : String) (top_k : Nat)
    (hdq : isDateQuery question = true)
    (he : (qa.hybrid_search.searchByDateState question).1.isEmpty = true) :
    (answer_question_enhanced embed llm qa question top_k).1 =
      composeAnswer llm
        { qa with hybrid_search := (qa.hybrid_search.searchByDateState question).2 }
        question (qa.vector_db.search (embed question) top_k) "semantic_fallback"
        true := by
  simp [answer_question_enhanced, hdq, he]

theorem aqe_semantic_eq (embed : String → List Int) (llm : String → Nat → String)
    (qa : QASystemState) (question : String) (top_k : Nat)
    (hdq : isDateQuery question = false) :
    (answer_question_enhanced embed llm qa question top_k).1 =
      composeAnswer llm qa question (qa.vector_db.search (embed question) top_k)
        "semantic" false := by
  simp [answer_question_enhanced, hdq]

/-- Claim C3 (confirmed): for a date-classified question, a non-empty
`search_by_date` result yields method `hybrid`, at most `top_k` sources,
each with the constant relevance score 1.0; an empty result falls back to
dense search with method `semantic_fallback`; a non-date question uses
dense search with method `semantic`. -/
theorem c3_routing (embed : String → List Int) (llm : String → Nat → String)
    (qa : QASystemState) (question : String) (top_k : Nat) :
    (isDateQuery question = true →
      (qa.hybrid_search.search_by_date question ≠ [] →
        (answer_question_enhanced embed llm qa question top_k).1.search_method =
            "hybrid" ∧
          (answer_question_enhanced embed llm qa question
            top_k).1.sources.length ≤ top_k ∧
          ∀ s ∈ (answer_question_enhanced embed llm qa question top_k).1.sources,
            s.relevance_score = 1) ∧
      (qa.hybrid_search.search_by_date question = [] →
        (answer_question_enhanced embed llm qa question top_k).1.search_method =
            "semantic_fallback" ∧
          (answer_question_enhanced embed llm qa question top_k).1.sources =
            denseSources qa (embed question) top_k)) ∧
    (isDateQuery question = false →
      (answer_question_enhanced embed llm qa question top_k).1.search_method =
          "semantic" ∧
        (answer_question_enhanced embed llm qa question top_k).1.sources =
          denseSources qa (embed question) top_k) := by
  constructor
  · intro hdq
    constructor
    · intro hne
      have he : (qa.hybrid_search.searchByDateState question).1.isEmpty = false := by
        unfold HybridSearchEngine.search_by_date at hne
        exact List.isEmpty_eq_false.mpr hne
      rw [aqe_hybrid_eq embed llm qa question top_k hdq he]
      refine ⟨composeAnswer_method _ _ _ _ _ _, ?_, ?_⟩
      · rw [composeAnswer_sources, List.length_map]
        unfold hybridResults
        rw [List.length_take]
        omega
      · intro s hs
        rw [composeAnswer_sources, List.mem_map] at hs
        obtain ⟨r, hr, hsr⟩ := hs
        have hr' := List.mem_of_mem_take hr
        rw [List.mem_filterMap] at hr'
        obtain ⟨cid, hcid, hf⟩ := hr'
        cases hlk : lookupA
            (qa.hybrid_search.searchByDateState question).2.chunks_by_id cid with
        | none => rw [hlk] at hf; simp at hf
        | some c =>
          rw [hlk] at hf
          have hrc : r = (c, (1 : Int)) := by
            have := hf
            simp only [Option.map] at this
            exact (Option.some.inj this).symm
          rw [← hsr, hrc]
    · intro hnil
      have he : (qa.hybrid_search.searchByDateState question).1.isEmpty = true := by
        unfold HybridSearchEngine.search_by_date at hnil
        simp [hnil]
      rw [aqe_fallback_eq embed llm qa question top_k hdq he]
      exact ⟨composeAnswer_method _ _ _ _ _ _, composeAnswer_sources _ _ _ _ _ _⟩
  · intro hdq
    rw [aqe_semantic_eq embed llm qa question top_k hdq]
    exact ⟨composeAnswer_method _ _ _ _ _ _, composeAnswer_sources _ _ _ _ _ _⟩

/-- A concrete indexed chunk used to instantiate routing theorems. -/
def witnessChunk : Chunk :=
  ⟨"Report_0", "Report", "6-Sept: Circulated WBM, weight 10.2.", [1], 0⟩

/-- A concrete system state with `witnessChunk` indexed in both indices. -/
def witnessQA : QASystemState :=
  ⟨(VectorDatabase.init 1).add_chunks [witnessChunk],
    HybridSearchEngine.init.index_chunk witnessChunk, "Ollama"⟩

theorem c3_witness :
    (answer_question_enhanced (fun _ => [1]) (fun _ _ => "ans") witnessQA
        "What was done on 6-Sept?" 3).1.search_method = "hybrid" ∧
      (answer_question_enhanced (fun _ => [1]) (fun _ _ => "ans") witnessQA
        "What was done on 6-Sept?" 3).1.sources.length ≤ 3 ∧
      ∀ s ∈ (answer_question_enhanced (fun _ => [1]) (fun _ _ => "ans") witnessQA
        "What was done on 6-Sept?" 3).1.sources, s.relevance_score = 1 :=
  ((c3_routing (fun _ => [1]) (fun _ _ => "ans") witnessQA
      "What was done on 6-Sept?" 3).1 (by decide)).1 (by decide)

/-- Claim C8 (confirmed): a question whose lowercased text contains none of
the fixed date-indicator phrases and matches none of the date-shape
regular expressions routes to dense semantic search — method `semantic`,
sources from the vector database — and leaves the hybrid engine (hence the
date index, which is never consulted) untouched. -/
theorem c8_semantic_routing (embed : String → List Int)
    (llm : String → Nat → String) (qa : QASystemState) (question : String)
    (top_k : Nat)
    (hind : ∀ ind ∈ date_indicators, containsSubS ind (toLowerS question) = false)
    (hpat : ∀ p ∈ qaDatePatterns, reSearchS p question = false) :
    (answer_question_enhanced embed llm qa question top_k).1.search_method =
        "semantic" ∧
      (answer_question_enhanced embed llm qa question top_k).1.sources =
        denseSources qa (embed question) top_k ∧
      (answer_question_enhanced embed llm qa question top_k).2 = qa := by
  have hdq : isDateQuery question = false := by
    unfold isDateQuery
    have h1 : date_indicators.any
        (fun ind => containsSubS ind (toLowerS question)) = false :=
      List.any_eq_false.mpr (fun x hx => by simp [hind x hx])
    have h2 : qaDatePatterns.any (fun p => reSearchS p question) = false :=
      List.any_eq_false.mpr (fun p hp => by simp [hpat p hp])
    rw [h1, h2]
    rfl
  refine ⟨?_, ?_, ?_⟩
  · simp [answer_question_enhanced, hdq, composeAnswer]
  · simp [answer_question_enhanced, hdq, composeAnswer, denseSources]
  · simp [answer_question_enhanced, hdq]

theorem c8_witness :
    (answer_question_enhanced (fun _ => [1]) (fun _ _ => "ans") witnessQA
        "What drilling procedures were used?" 3).1.search_method = "semantic" :=
  (c8_semantic_routing (fun _ => [1]) (fun _ _ => "ans") witnessQA
      "What drilling procedures were used?" 3 (by decide) (by decide)).1

/-!
## Splitting lemmas
-/

theorem strMk_data (s : String) : String.mk s.data = s := by
  cases s
  rfl

theorem splitOnCharL_ne_nil (c : Char) (l : List Char) : splitOnCharL c l ≠ [] := by
  cases l with
  | nil => simp [splitOnCharL]
  | cons x xs =>
    rw [splitOnCharL]
    cases splitOnCharL c xs with
    | nil => by_cases h : x = c <;> simp [h]
    | cons h t => by_cases hx : x = c <;> simp [hx]

theorem splitOnCharL_not_mem (c : Char) (l : List Char) (h : c ∉ l) :
    splitOnCharL c l = [l] := by
  induction l with
  | nil => rfl
  | cons x xs ih =>
    have hx : ¬ x = c := fun he => h (he ▸ List.mem_cons_self x xs)
    have h' : c ∉ xs := fun hm => h (List.mem_cons_of_mem _ hm)
    rw [splitOnCharL, ih h']
    simp [hx]

theorem splitOnCharL_append (c : Char) (a b : List Char) (ha : c ∉ a) :
    splitOnCharL c (a ++ c :: b) = a :: splitOnCharL c b := by
  induction a with
  | nil =>
    rw [List.nil_append, splitOnCharL]
    cases hs : splitOnCharL c b with
    | nil => exact absurd hs (splitOnCharL_ne_nil c b)
    | cons h t => simp
  | cons x xs ih =>
    have hx : ¬ x = c := fun he => ha (he ▸ List.mem_cons_self x xs)
    have ha' : c ∉ xs := fun hm => ha (List.mem_cons_of_mem _ hm)
    rw [List.cons_append, splitOnCharL, ih ha']
    simp [hx]

/-- `day-month` split into its two components when neither side has a hyphen. -/
theorem splitOnCharS_hyphen (day month : String) (hd : '-' ∉ day.data)
    (hm : '-' ∉ month.data) :
    splitOnCharS '-' (day ++ "-" ++ month) = [day, month] := by
  unfold splitOnCharS
  have hdata : (day ++ "-" ++ month).data = day.data ++ '-' :: month.data := by
    rw [String.data_append, String.data_append]
    have h1 : ("-" : String).data = ['-'] := rfl
    rw [h1, List.append_assoc]
    rfl
  rw [hdata, splitOnCharL_append '-' day.data month.data hd,
    splitOnCharL_not_mem '-' month.data hm]
  simp [strMk_data]

theorem splitWsGo_accum (l : List Char) (h : ∀ x ∈ l, isSpaceChar x = false)
    (rest cur : List Char) :
    splitWsGo (l ++ rest) cur = splitWsGo rest (l.reverse ++ cur) := by
  induction l generalizing cur with
  | nil => rfl
  | cons x xs ih =>
    have hx := h x (List.mem_cons_self x xs)
    rw [List.cons_append, splitWsGo, hx]
    simp only [Bool.false_eq_true, if_false]
    rw [ih (fun y hy => h y (List.mem_cons_of_mem _ hy)) (x :: cur)]
    simp

/-- Python `"day mp".split()` gives the two words back. -/
theorem pySplitWs_two_words (day mp : String) (hd : day.data ≠ [])
    (hd' : ∀ x ∈ day.data, isSpaceChar x = false) (hm : mp.data ≠ [])
    (hm' : ∀ x ∈ mp.data, isSpaceChar x = false) :
    pySplitWsS (day ++ " " ++ mp) = [day, mp] := by
  unfold pySplitWsS
  have hdata : (day ++ " " ++ mp).data = day.data ++ ' ' :: mp.data := by
    rw [String.data_append, String.data_append]
    have h1 : (" " : String).data = [' '] := rfl
    rw [h1, List.append_assoc]
    rfl
  rw [hdata, splitWsGo_accum day.data hd' (' ' :: mp.data) []]
  rw [List.append_nil, splitWsGo]
  have hsp : isSpaceChar ' ' = true := rfl
  rw [hsp]
  simp only [if_true]
  have hne : day.data.reverse.isEmpty = false := by
    rw [List.isEmpty_eq_false]
    simp [hd]
  rw [hne]
  simp only [Bool.false_eq_true, if_false, List.reverse_reverse]
  have h2 : splitWsGo (mp.data ++ []) [] = splitWsGo [] (mp.data.reverse ++ []) :=
    splitWsGo_accum mp.data hm' [] []
  rw [List.append_nil] at h2
  rw [h2, List.append_nil, splitWsGo]
  have hne2 : mp.data.reverse.isEmpty = false := by
    rw [List.isEmpty_eq_false]
    simp [hm]
  rw [hne2]
  simp [strMk_data]

theorem replaceAllGo_not_mem (c : Char) (new : List Char) (l : List Char)
    (h : c ∉ l) (fuel : Nat) : replaceAllGo [c] new fuel l = l := by
  induction l generalizing fuel with
  | nil => cases fuel <;> rfl
  | cons x xs ih =>
    cases fuel with
    | zero => rfl
    | succ n =>
      have hx : ¬ c = x := fun he => h (he ▸ List.mem_cons_self x xs)
      rw [replaceAllGo]
      have hp : isPrefixL [c] (x :: xs) = false := by
        unfold isPrefixL
        simp [hx]
      rw [hp]
      simp only [Bool.and_false, Bool.false_eq_true, if_false]
      rw [ih (fun hm => h (List.mem_cons_of_mem _ hm)) n]

/-- Python `s.replace(",", "")` is the identity on comma-free strings. -/
theorem pyReplaceAll_comma_id (s : String) (h : ',' ∉ s.data) :
    pyReplaceAllS s "," "" = s := by
  unfold pyReplaceAllS
  have : ("," : String).data = [','] := rfl
  rw [this]
  rw [replaceAllGo_not_mem ',' _ s.data h s.data.length]

theorem all_of_forall_class (l : List Char) (f : Char → Bool)
    (h : ∀ x ∈ l, f x = true) : l.all f = true :=
  List.all_eq_true.mpr h

theorem not_mem_of_all_class (l : List Char) (f : Char → Bool)
    (h : l.all f = true) (c : Char) (hc : f c = false) : c ∉ l := by
  intro hm
  have := List.all_eq_true.mp h c hm
  rw [this] at hc
  simp at hc

/-!
## Regex head-match lemmas

The repo's date patterns are concatenations of character-class repetitions
with word boundaries. On inputs that are exactly one date token, the greedy
engine commits to the full token: the lemmas below compute the head of the
outcome list compositionally.
-/

/-- The "previous character" after consuming `ls`, starting from `p`. -/
def lastO (p : Option Char) (ls : List Char) : Option Char :=
  match ls.getLast? with
  | some c => some c
  | none => p

theorem lastO_cons (p : Option Char) (x : Char) (xs : List Char) :
    lastO p (x :: xs) = lastO (some x) xs := by
  cases xs with
  | nil => rfl
  | cons y ys =>
    unfold lastO
    rw [List.getLast?_cons_cons]
    cases hg : (y :: ys).getLast? with
    | none => simp at hg
    | some g => rfl

theorem lastO_eq_getLast (p : Option Char) (ls : List Char) (h : ls ≠ []) :
    ∃ c, lastO p ls = some c ∧ c ∈ ls := by
  induction ls generalizing p with
  | nil => exact absurd rfl h
  | cons x xs ih =>
    cases xs with
    | nil => exact ⟨x, rfl, List.mem_cons_self x []⟩
    | cons y ys =>
      obtain ⟨c, hc, hm⟩ := ih (some x) (by simp)
      exact ⟨c, by rw [lastO_cons]; exact hc, List.mem_cons_of_mem _ hm⟩

theorem word_of_digit (c : Char) (h : isDigitChar c = true) : isWordChar c = true := by
  unfold isWordChar
  unfold isDigitChar at h
  simp [Char.isAlphanum, h]

theorem word_of_alpha (c : Char) (h : isAlphaChar c = true) : isWordChar c = true := by
  unfold isWordChar
  unfold isAlphaChar at h
  simp [Char.isAlphanum, h]

theorem not_space_of_digit (c : Char) (h : isDigitChar c = true) :
    isSpaceChar c = false := by
  by_cases h1 : c = ' '
  · subst h1; exact absurd h (by decide)
  by_cases h2 : c = '\t'
  · subst h2; exact absurd h (by decide)
  by_cases h3 : c = '\n'
  · subst h3; exact absurd h (by decide)
  by_cases h4 : c = '\r'
  · subst h4; exact absurd h (by decide)
  by_cases h5 : c = '\x0b'
  · subst h5; exact absurd h (by decide)
  by_cases h6 : c = '\x0c'
  · subst h6; exact absurd h (by decide)
  simp [isSpaceChar, h1, h2, h3, h4, h5, h6]

theorem not_space_of_alpha (c : Char) (h : isAlphaChar c = true) :
    isSpaceChar c = false := by
  by_cases h1 : c = ' '
  · subst h1; exact absurd h (by decide)
  by_cases h2 : c = '\t'
  · subst h2; exact absurd h (by decide)
  by_cases h3 : c = '\n'
  · subst h3; exact absurd h (by decide)
  by_cases h4 : c = '\r'
  · subst h4; exact absurd h (by decide)
  by_cases h5 : c = '\x0b'
  · subst h5; exact absurd h (by decide)
  by_cases h6 : c = '\x0c'
  · subst h6; exact absurd h (by decide)
  simp [isSpaceChar, h1, h2, h3, h4, h5, h6]

theorem not_digit_of_alpha (c : Char) (h : isAlphaChar c = true) :
    isDigitChar c = false := by
  cases hd : isDigitChar c with
  | false => rfl
  | true =>
    exfalso
    unfold isDigitChar Char.isDigit at hd
    unfold isAlphaChar Char.isAlpha Char.isUpper Char.isLower at h
    simp only [Bool.and_eq_true, Bool.or_eq_true, decide_eq_true_eq,
      ge_iff_le] at hd h
    obtain ⟨hd1, hd2⟩ := hd
    rcases h with ⟨h1, h2⟩ | ⟨h1, h2⟩
    · exact absurd (UInt32.le_trans h1 hd2) (by decide)
    · exact absurd (UInt32.le_trans h1 hd2) (by decide)

theorem not_alpha_of_digit (c : Char) (h : isDigitChar c = true) :
    isAlphaChar c = false := by
  cases ha : isAlphaChar c with
  | false => rfl
  | true => rw [not_digit_of_alpha c ha] at h; simp at h

/-- Greedy class repetition consumes exactly a maximal run. -/
theorem repGo_cls_full (c : CClass) (ls rest : List Char) (p : Option Char)
    (lo hi : Nat) (hall : ∀ x ∈ ls, classMatch c x = true)
    (hlo : lo ≤ ls.length) (hhi : ls.length ≤ hi)
    (hstop : ∀ r, rest.head? = some r → classMatch c r = false) :
    ∃ tail, repGo (matchRE (.cls c)) lo hi p (ls ++ rest) =
      (lastO p ls, rest) :: tail := by
  induction ls generalizing p lo hi with
  | nil =>
    have hlo0 : lo = 0 := Nat.le_zero.mp hlo
    subst hlo0
    cases hi with
    | zero => exact ⟨[], by rw [List.nil_append, repGo]; rfl⟩
    | succ n =>
      refine ⟨[], ?_⟩
      rw [List.nil_append, repGo]
      have hm : matchRE (.cls c) p rest = [] := by
        cases rest with
        | nil => rfl
        | cons r rs =>
          have hr := hstop r rfl
          simp [matchRE, hr]
      rw [hm]
      rfl
  | cons x xs ih =>
    cases hi with
    | zero => exact absurd hhi (by simp)
    | succ n =>
      have hx : classMatch c x = true := hall x (List.mem_cons_self x xs)
      rw [List.cons_append, repGo]
      have hm : matchRE (.cls c) p (x :: (xs ++ rest)) = [(some x, xs ++ rest)] := by
        simp [matchRE, hx]
      rw [hm]
      have hlo' : lo - 1 ≤ xs.length := by
        simp only [List.length_cons] at hlo
        omega
      have hhi' : xs.length ≤ n := by
        simp only [List.length_cons] at hhi
        omega
      obtain ⟨t, ht⟩ := ih (some x) (lo - 1) n
        (fun y hy => hall y (List.mem_cons_of_mem _ hy)) hlo' hhi'
      rw [List.flatMap_cons, List.flatMap_nil, List.append_nil, ht, lastO_cons]
      exact ⟨t ++ (if lo = 0 then [(p, x :: (xs ++ rest))] else []), rfl⟩

theorem matchRE_rep_head (c : CClass) (ls rest : List Char) (p : Option Char)
    (lo hi : Nat) (hall : ∀ x ∈ ls, classMatch c x = true)
    (hlo : lo ≤ ls.length) (hhi : ls.length ≤ hi)
    (hstop : ∀ r, rest.head? = some r → classMatch c r = false) :
    ∃ tail, matchRE (.rep lo hi (.cls c)) p (ls ++ rest) =
      (lastO p ls, rest) :: tail :=
  repGo_cls_full c ls rest p lo hi hall hlo hhi hstop

theorem matchRE_plus_head (c : CClass) (ls rest : List Char) (p : Option Char)
    (hne : ls ≠ []) (hall : ∀ x ∈ ls, classMatch c x = true)
    (hstop : ∀ r, rest.head? = some r → classMatch c r = false) :
    ∃ tail, matchRE (.plus (.cls c)) p (ls ++ rest) =
      (lastO p ls, rest) :: tail := by
  have h1 : 1 ≤ ls.length := by
    cases ls with
    | nil => exact absurd rfl hne
    | cons a l => simp
  have h2 : ls.length ≤ (ls ++ rest).length := by
    rw [List.length_append]
    omega
  exact repGo_cls_full c ls rest p 1 (ls ++ rest).length hall h1 h2 hstop

theorem matchRE_seq_head (a b : RE) (p : Option Char) (s : List Char)
    (qa qb : Option Char × List Char) (ta tb : List (Option Char × List Char))
    (ha : matchRE a p s = qa :: ta) (hb : matchRE b qa.1 qa.2 = qb :: tb) :
    ∃ t, matchRE (.seq a b) p s = qb :: t := by
  refine ⟨tb ++ ta.flatMap (fun q => matchRE b q.1 q.2), ?_⟩
  show (matchRE a p s).flatMap (fun q => matchRE b q.1 q.2) = _
  rw [ha, List.flatMap_cons, hb]
  rfl

theorem matchRE_bnd_eq (p : Option Char) (s : List Char)
    (h : (isWordOpt p != isWordOpt s.head?) = true) :
    matchRE .bnd p s = [(p, s)] := by
  simp [matchRE, h]

theorem matchRE_chr_eq (c : Char) (p : Option Char) (rest : List Char) :
    matchRE (.chr c) p (c :: rest) = [(some c, rest)] := by
  simp [matchRE]

theorem findAllGo_succ (r : RE) (fuel : Nat) (p : Option Char) (s : List Char) :
    findAllGo r (fuel + 1) p s =
      match matchFirst r p s with
      | some (p', rest) =>
        let n := s.length - rest.length
        if n = 0 then
          match s with
          | [] => []
          | c :: cs => findAllGo r fuel (some c) cs
        else s.take n :: findAllGo r fuel p' rest
      | none =>
        match s with
        | [] => []
        | c :: cs => findAllGo r fuel (some c) cs := rfl

theorem findAllGo_nil (r : RE) (fuel : Nat) (p : Option Char) :
    findAllGo r fuel p [] = [] := by
  cases fuel with
  | zero => rfl
  | succ n =>
    rw [findAllGo_succ]
    cases hm : matchFirst r p [] with
    | none => rfl
    | some q => simp

/-- A pattern whose committed match at position 0 consumes the whole input
makes `findall` return exactly that input. -/
theorem reFindAll_single (r : RE) (s : List Char) (hne : s ≠ [])
    (pf : Option Char) (t : List (Option Char × List Char))
    (h : matchRE r none s = (pf, []) :: t) :
    reFindAll r s = [s] := by
  unfold reFindAll
  rw [findAllGo_succ]
  have hmf : matchFirst r none s = some (pf, []) := by
    unfold matchFirst
    rw [h]
    rfl
  rw [hmf]
  have hn0 : ¬ s.length - ([] : List Char).length = 0 := by
    simp only [List.length_nil, Nat.sub_zero]
    intro hc
    exact hne (List.length_eq_zero.mp hc)
  simp only [List.length_nil, Nat.sub_zero] at hn0 ⊢
  rw [if_neg hn0, List.take_length, findAllGo_nil]

/-- Hypothesis bundle: `l` is a 1-2 digit day token. -/
def DayTok (l : List Char) : Prop :=
  l ≠ [] ∧ l.length ≤ 2 ∧ ∀ x ∈ l, isDigitChar x = true

/-- Hypothesis bundle: `l` is a 3-9 letter month token. -/
def MonTok (l : List Char) : Prop :=
  3 ≤ l.length ∧ l.length ≤ 9 ∧ ∀ x ∈ l, isAlphaChar x = true

instance (l : List Char) : Decidable (DayTok l) := by
  unfold DayTok
  infer_instance

instance (l : List Char) : Decidable (MonTok l) := by
  unfold MonTok
  infer_instance

theorem MonTok.ne_nil {l : List Char} (h : MonTok l) : l ≠ [] := by
  intro he
  subst he
  simp [MonTok] at h

/-- On input `day-month`, pattern `\b\d{1,2}-[A-Za-z]{3,9}\b` commits to the
whole input at position 0. -/
theorem matchRE_p1_whole (day month : List Char) (hd : DayTok day)
    (hm : MonTok month) :
    ∃ pf t, matchRE hs_p1 none (day ++ '-' :: month) = (pf, []) :: t := by
  obtain ⟨hdne, hd2, hdAll⟩ := hd
  obtain ⟨hm3, hm9, hmAll⟩ := hm
  obtain ⟨d0, dt, hday⟩ : ∃ d0 dt, day = d0 :: dt := by
    cases day with
    | nil => exact absurd rfl hdne
    | cons a l => exact ⟨a, l, rfl⟩
  have h1 : matchRE .bnd none (day ++ '-' :: month) =
      [(none, day ++ '-' :: month)] := by
    apply matchRE_bnd_eq
    rw [hday]
    simp [isWordOpt, word_of_digit d0 (hdAll d0 (by rw [hday]; exact List.mem_cons_self d0 dt))]
  obtain ⟨t2, h2⟩ := matchRE_rep_head .digit day ('-' :: month) none 1 2 hdAll
    (by cases day with
        | nil => exact absurd rfl hdne
        | cons a l => simp)
    hd2
    (fun r hr => by
      have : r = '-' := by simpa using hr.symm
      subst this
      decide)
  have h3 := matchRE_chr_eq '-' (lastO none day) month
  obtain ⟨t4, h4⟩ := matchRE_rep_head .alpha month [] (some '-') 3 9 hmAll hm3 hm9
    (fun r hr => by simp at hr)
  rw [List.append_nil] at h4
  obtain ⟨cl, hcl, hclmem⟩ := lastO_eq_getLast (some '-') month
    (by intro he; rw [he] at hm3; simp at hm3)
  have h5 : matchRE .bnd (lastO (some '-') month) [] =
      [(lastO (some '-') month, [])] := by
    apply matchRE_bnd_eq
    rw [hcl]
    simp [isWordOpt, word_of_alpha cl (hmAll cl hclmem)]
  obtain ⟨t45, hc45⟩ := matchRE_seq_head (.rep 3 9 (.cls .alpha)) .bnd (some '-')
    month (lastO (some '-') month, []) (lastO (some '-') month, []) t4 [] h4 h5
  obtain ⟨t345, hc345⟩ := matchRE_seq_head (.chr '-')
    (.seq (.rep 3 9 (.cls .alpha)) .bnd) (lastO none day) ('-' :: month)
    (some '-', month) (lastO (some '-') month, []) [] t45 h3 hc45
  obtain ⟨t2345, hc2345⟩ := matchRE_seq_head (.rep 1 2 (.cls .digit))
    (.seq (.chr '-') (.seq (.rep 3 9 (.cls .alpha)) .bnd)) none
    (day ++ '-' :: month) (lastO none day, '-' :: month)
    (lastO (some '-') month, []) t2 t345 h2 hc345
  obtain ⟨tall, hcall⟩ := matchRE_seq_head .bnd
    (.seq (.rep 1 2 (.cls .digit))
      (.seq (.chr '-') (.seq (.rep 3 9 (.cls .alpha)) .bnd))) none
    (day ++ '-' :: month) (none, day ++ '-' :: month)
    (lastO (some '-') month, []) [] t2345 h1 hc2345
  exact ⟨lastO (some '-') month, tall, hcall⟩

theorem mem_of_head? {α : Type} {l : List α} {a : α} (h : l.head? = some a) :
    a ∈ l := by
  cases l with
  | nil => simp at h
  | cons x xs =>
    have hax : a = x := by simpa using h.symm
    subst hax
    exact List.mem_cons_self a xs

theorem matchRE_five_seq_head (r1 r2 r3 r4 r5 : RE) (p0 : Option Char)
    (s0 : List Char) (q1 q2 q3 q4 q5 : Option Char × List Char)
    (t1 t2 t3 t4 t5 : List (Option Char × List Char))
    (h1 : matchRE r1 p0 s0 = q1 :: t1)
    (h2 : matchRE r2 q1.1 q1.2 = q2 :: t2)
    (h3 : matchRE r3 q2.1 q2.2 = q3 :: t3)
    (h4 : matchRE r4 q3.1 q3.2 = q4 :: t4)
    (h5 : matchRE r5 q4.1 q4.2 = q5 :: t5) :
    ∃ t, matchRE (.seq r1 (.seq r2 (.seq r3 (.seq r4 r5)))) p0 s0 = q5 :: t := by
  obtain ⟨t45, hc45⟩ := matchRE_seq_head r4 r5 q3.1 q3.2 q4 q5 t4 t5 h4 h5
  obtain ⟨t345, hc345⟩ := matchRE_seq_head r3 (.seq r4 r5) q2.1 q2.2 q3 q5 t3 t45
    h3 hc45
  obtain ⟨t2345, hc2345⟩ := matchRE_seq_head r2 (.seq r3 (.seq r4 r5)) q1.1 q1.2
    q2 q5 t2 t345 h2 hc345
  exact matchRE_seq_head r1 (.seq r2 (.seq r3 (.seq r4 r5))) p0 s0 q1 q5 t1
    t2345 h1 hc2345

theorem matchRE_three_seq_head (r1 r2 r3 : RE) (p0 : Option Char)
    (s0 : List Char) (q1 q2 q3 : Option Char × List Char)
    (t1 t2 t3 : List (Option Char × List Char))
    (h1 : matchRE r1 p0 s0 = q1 :: t1)
    (h2 : matchRE r2 q1.1 q1.2 = q2 :: t2)
    (h3 : matchRE r3 q2.1 q2.2 = q3 :: t3) :
    ∃ t, matchRE (.seq r1 (.seq r2 r3)) p0 s0 = q3 :: t := by
  obtain ⟨t23, hc23⟩ := matchRE_seq_head r2 r3 q1.1 q1.2 q2 q3 t2 t3 h2 h3
  exact matchRE_seq_head r1 (.seq r2 r3) p0 s0 q1 q3 t1 t23 h1 hc23

/-- On input `month day` (single space), pattern `\b[A-Za-z]{3,9}\s+\d{1,2}\b`
commits to the whole input at position 0. -/
theorem matchRE_p2_whole (month day : List Char) (hm : MonTok month)
    (hd : DayTok day) :
    ∃ pf t, matchRE hs_p2 none (month ++ ' ' :: day) = (pf, []) :: t := by
  obtain ⟨hdne, hd2, hdAll⟩ := hd
  obtain ⟨hm3, hm9, hmAll⟩ := hm
  have hmne : month ≠ [] := by
    intro he
    rw [he] at hm3
    simp at hm3
  obtain ⟨m0, mt, hmon⟩ : ∃ m0 mt, month = m0 :: mt := by
    cases month with
    | nil => exact absurd rfl hmne
    | cons a l => exact ⟨a, l, rfl⟩
  have h1 : matchRE .bnd none (month ++ ' ' :: day) =
      [(none, month ++ ' ' :: day)] := by
    apply matchRE_bnd_eq
    rw [hmon]
    simp [isWordOpt,
      word_of_alpha m0 (hmAll m0 (by rw [hmon]; exact List.mem_cons_self m0 mt))]
  obtain ⟨t2, h2⟩ := matchRE_rep_head .alpha month (' ' :: day) none 3 9 hmAll hm3
    hm9 (fun r hr => by
      have hr' : r = ' ' := by simpa using hr.symm
      subst hr'
      decide)
  obtain ⟨t3, h3⟩ := matchRE_plus_head .space [' '] day (lastO none month)
    (by simp) (by intro x hx; simp at hx; subst hx; rfl)
    (fun r hr => not_space_of_digit r (hdAll r (mem_of_head? hr)))
  obtain ⟨t4, h4⟩ := matchRE_rep_head .digit day []
    (lastO (lastO none month) [' ']) 1 2 hdAll
    (by cases day with
        | nil => exact absurd rfl hdne
        | cons a l => simp)
    hd2 (fun r hr => by simp at hr)
  rw [List.append_nil] at h4
  obtain ⟨cl, hcl, hclmem⟩ := lastO_eq_getLast (lastO (lastO none month) [' '])
    day hdne
  have h5 : matchRE .bnd (lastO (lastO (lastO none month) [' ']) day) [] =
      [(lastO (lastO (lastO none month) [' ']) day, [])] := by
    apply matchRE_bnd_eq
    rw [hcl]
    simp [isWordOpt, word_of_digit cl (hdAll cl hclmem)]
  obtain ⟨t, ht⟩ := matchRE_five_seq_head .bnd (.rep 3 9 (.cls .alpha))
    (.plus (.cls .space)) (.rep 1 2 (.cls .digit)) .bnd none
    (month ++ ' ' :: day) (none, month ++ ' ' :: day)
    (lastO none month, ' ' :: day) (lastO (lastO none month) [' '], day)
    (lastO (lastO (lastO none month) [' ']) day, [])
    (lastO (lastO (lastO none month) [' ']) day, []) [] t2 t3 t4 [] h1 h2 h3 h4 h5
  exact ⟨lastO (lastO (lastO none month) [' ']) day, t, ht⟩

/-- On input `day month` (single space), pattern `\b\d{1,2}\s+[A-Za-z]{3,9}\b`
commits to the whole input at position 0. -/
theorem matchRE_q3_whole (day month : List Char) (hd : DayTok day)
    (hm : MonTok month) :
    ∃ pf t, matchRE hs_q3 none (day ++ ' ' :: month) = (pf, []) :: t := by
  obtain ⟨hdne, hd2, hdAll⟩ := hd
  obtain ⟨hm3, hm9, hmAll⟩ := hm
  have hmne : month ≠ [] := by
    intro he
    rw [he] at hm3
    simp at hm3
  obtain ⟨d0, dt, hday⟩ : ∃ d0 dt, day = d0 :: dt := by
    cases day with
    | nil => exact absurd rfl hdne
    | cons a l => exact ⟨a, l, rfl⟩
  have h1 : matchRE .bnd none (day ++ ' ' :: month) =
      [(none, day ++ ' ' :: month)] := by
    apply matchRE_bnd_eq
    rw [hday]
    simp [isWordOpt,
      word_of_digit d0 (hdAll d0 (by rw [hday]; exact List.mem_cons_self d0 dt))]
  obtain ⟨t2, h2⟩ := matchRE_rep_head .digit day (' ' :: month) none 1 2 hdAll
    (by cases day with
        | nil => exact absurd rfl hdne
        | cons a l => simp)
    hd2 (fun r hr => by
      have hr' : r = ' ' := by simpa using hr.symm
      subst hr'
      decide)
  obtain ⟨t3, h3⟩ := matchRE_plus_head .space [' '] month (lastO none day)
    (by simp) (by intro x hx; simp at hx; subst hx; rfl)
    (fun r hr => not_space_of_alpha r (hmAll r (mem_of_head? hr)))
  obtain ⟨t4, h4⟩ := matchRE_rep_head .alpha month []
    (lastO (lastO none day) [' ']) 3 9 hmAll hm3 hm9 (fun r hr => by simp at hr)
  rw [List.append_nil] at h4
  obtain ⟨cl, hcl, hclmem⟩ := lastO_eq_getLast (lastO (lastO none day) [' '])
    month hmne
  have h5 : matchRE .bnd (lastO (lastO (lastO none day) [' ']) month) [] =
      [(lastO (lastO (lastO none day) [' ']) month, [])] := by
    apply matchRE_bnd_eq
    rw [hcl]
    simp [isWordOpt, word_of_alpha cl (hmAll cl hclmem)]
  obtain ⟨t, ht⟩ := matchRE_five_seq_head .bnd (.rep 1 2 (.cls .digit))
    (.plus (.cls .space)) (.rep 3 9 (.cls .alpha)) .bnd none
    (day ++ ' ' :: month) (none, day ++ ' ' :: month)
    (lastO none day, ' ' :: month) (lastO (lastO none day) [' '], month)
    (lastO (lastO (lastO none day) [' ']) month, [])
    (lastO (lastO (lastO none day) [' ']) month, []) [] t2 t3 t4 [] h1 h2 h3 h4 h5
  exact ⟨lastO (lastO (lastO none day) [' ']) month, t, ht⟩

/-- The unanchored `re.match` pattern `\d{1,2}-[A-Za-z]{3,9}` of
`expand_date_formats` succeeds on `day-month`. -/
theorem matchRE_p1core_whole (day month : List Char) (hd : DayTok day)
    (hm : MonTok month) :
    ∃ pf t, matchRE tp_p1_core none (day ++ '-' :: month) = (pf, []) :: t := by
  obtain ⟨hdne, hd2, hdAll⟩ := hd
  obtain ⟨hm3, hm9, hmAll⟩ := hm
  obtain ⟨t2, h2⟩ := matchRE_rep_head .digit day ('-' :: month) none 1 2 hdAll
    (by cases day with
        | nil => exact absurd rfl hdne
        | cons a l => simp)
    hd2 (fun r hr => by
      have hr' : r = '-' := by simpa using hr.symm
      subst hr'
      decide)
  have h3 := matchRE_chr_eq '-' (lastO none day) month
  obtain ⟨t4, h4⟩ := matchRE_rep_head .alpha month [] (some '-') 3 9 hmAll hm3 hm9
    (fun r hr => by simp at hr)
  rw [List.append_nil] at h4
  obtain ⟨t, ht⟩ := matchRE_three_seq_head (.rep 1 2 (.cls .digit)) (.chr '-')
    (.rep 3 9 (.cls .alpha)) none (day ++ '-' :: month)
    (lastO none day, '-' :: month) (some '-', month)
    (lastO (some '-') month, []) t2 [] t4 h2 h3 h4
  exact ⟨lastO (some '-') month, t, ht⟩

/-!
## String-level findall corollaries
-/

theorem data_hyphen (day month : String) :
    (day ++ "-" ++ month).data = day.data ++ '-' :: month.data := by
  rw [String.data_append, String.data_append]
  have h1 : ("-" : String).data = ['-'] := rfl
  rw [h1, List.append_assoc]
  rfl

theorem data_space (a b : String) :
    (a ++ " " ++ b).data = a.data ++ ' ' :: b.data := by
  rw [String.data_append, String.data_append]
  have h1 : (" " : String).data = [' '] := rfl
  rw [h1, List.append_assoc]
  rfl

theorem reFindAllS_p1 (day month : String) (hd : DayTok day.data)
    (hm : MonTok month.data) :
    reFindAllS hs_p1 (day ++ "-" ++ month) = [day ++ "-" ++ month] := by
  unfold reFindAllS
  obtain ⟨pf, t, h⟩ := matchRE_p1_whole day.data month.data hd hm
  rw [data_hyphen]
  rw [reFindAll_single hs_p1 (day.data ++ '-' :: month.data) (by simp) pf t h]
  rw [List.map_cons, List.map_nil, ← data_hyphen, strMk_data]

theorem reFindAllS_p2 (month day : String) (hm : MonTok month.data)
    (hd : DayTok day.data) :
    reFindAllS hs_p2 (month ++ " " ++ day) = [month ++ " " ++ day] := by
  unfold reFindAllS
  obtain ⟨pf, t, h⟩ := matchRE_p2_whole month.data day.data hm hd
  rw [data_space]
  rw [reFindAll_single hs_p2 (month.data ++ ' ' :: day.data) (by simp) pf t h]
  rw [List.map_cons, List.map_nil, ← data_space, strMk_data]

theorem reFindAllS_q3 (day month : String) (hd : DayTok day.data)
    (hm : MonTok month.data) :
    reFindAllS hs_q3 (day ++ " " ++ month) = [day ++ " " ++ month] := by
  unfold reFindAllS
  obtain ⟨pf, t, h⟩ := matchRE_q3_whole day.data month.data hd hm
  rw [data_space]
  rw [reFindAll_single hs_q3 (day.data ++ ' ' :: month.data) (by simp) pf t h]
  rw [List.map_cons, List.map_nil, ← data_space, strMk_data]

theorem reMatchStartS_p1core (day month : String) (hd : DayTok day.data)
    (hm : MonTok month.data) :
    reMatchStartS tp_p1_core (day ++ "-" ++ month) = true := by
  unfold reMatchStartS
  obtain ⟨pf, t, h⟩ := matchRE_p1core_whole day.data month.data hd hm
  rw [data_hyphen, h]
  rfl

/-!
## Structure of generate_date_variants
-/

theorem pyIsDigitS_iff (s : String) :
    pyIsDigitS s = true ↔ s.data ≠ [] ∧ ∀ x ∈ s.data, isDigitChar x = true := by
  unfold pyIsDigitS
  rw [Bool.and_eq_true, Bool.not_eq_true', List.isEmpty_eq_false,
    List.all_eq_true]

theorem pyIsAlphaS_iff (s : String) :
    pyIsAlphaS s = true ↔ s.data ≠ [] ∧ ∀ x ∈ s.data, isAlphaChar x = true := by
  unfold pyIsAlphaS
  rw [Bool.and_eq_true, Bool.not_eq_true', List.isEmpty_eq_false,
    List.all_eq_true]

theorem lookupA_mem {α : Type} (d : List (String × α)) (k : String) (v : α)
    (h : lookupA d k = some v) : (k, v) ∈ d := by
  induction d with
  | nil => simp [lookupA] at h
  | cons p rest ih =>
    obtain ⟨k', v'⟩ := p
    rw [lookupA] at h
    by_cases hk : k' = k
    · rw [if_pos hk] at h
      have hv : v' = v := Option.some.inj h
      subst hk
      subst hv
      exact List.mem_cons_self _ _
    · rw [if_neg hk] at h
      exact List.mem_cons_of_mem _ (ih h)

/-- Every `generate_date_variants` result is the dedup of a list headed by
the input itself. -/
theorem gdv_shape (d : String) :
    ∃ extra, generate_date_variants d = (d :: extra).dedup := by
  unfold generate_date_variants
  by_cases h1 : d.data.contains '-' = true
  · simp only [h1, if_true]
    cases hs : splitOnCharS '-' d with
    | nil => exact ⟨[], rfl⟩
    | cons a t =>
      cases t with
      | nil => exact ⟨[], rfl⟩
      | cons b t2 =>
        cases t2 with
        | nil =>
          dsimp only
          cases hlk : lookupA month_mappings
              (String.mk ((toLowerS b).data.take 3)) with
          | none => exact ⟨[], rfl⟩
          | some mvs => exact ⟨mvs.flatMap (hyphenForms a), rfl⟩
        | cons e t3 => exact ⟨[], rfl⟩
  · simp only [h1]
    rw [if_neg (by simp)]
    by_cases h2 : d.data.contains ' ' = true
    · simp only [h2, if_true]
      cases hs : pySplitWsS (pyReplaceAllS d "," "") with
      | nil => exact ⟨[], rfl⟩
      | cons p0 t =>
        cases t with
        | nil => exact ⟨[], rfl⟩
        | cons p1 t2 =>
          dsimp only
          by_cases hb1 : (pyIsAlphaS p0 && pyIsDigitS p1) = true
          · rw [if_pos hb1]
            exact ⟨spaceForms p1 p0, rfl⟩
          · rw [if_neg hb1]
            by_cases hb2 : (pyIsDigitS p0 && pyIsAlphaS p1) = true
            · rw [if_pos hb2]
              exact ⟨spaceForms p0 p1, rfl⟩
            · rw [if_neg hb2]
              exact ⟨[], rfl⟩
    · rw [if_neg (by simpa using h2)]
      exact ⟨[], rfl⟩

theorem self_mem_gdv (d : String) : d ∈ generate_date_variants d := by
  obtain ⟨extra, he⟩ := gdv_shape d
  rw [he, List.mem_dedup]
  exact List.mem_cons_self d extra

theorem gdv_ne_nil (d : String) : generate_date_variants d ≠ [] :=
  List.ne_nil_of_mem (self_mem_gdv d)

/-- The hyphen branch of `generate_date_variants` for a recognized month. -/
theorem gdv_hyphen_eq (day month : String) (mvs : List String)
    (hd : '-' ∉ day.data) (hm : '-' ∉ month.data)
    (hrow : lookupA month_mappings
      (String.mk ((toLowerS month).data.take 3)) = some mvs) :
    generate_date_variants (day ++ "-" ++ month) =
      ((day ++ "-" ++ month) :: mvs.flatMap (hyphenForms day)).dedup := by
  unfold generate_date_variants
  have hc : (day ++ "-" ++ month).data.contains '-' = true := by
    rw [data_hyphen]
    simp
  simp only [hc, if_true]
  rw [splitOnCharS_hyphen day month hd hm]
  simp only [hrow]
  rfl

theorem contains_true_of_mem {l : List Char} {c : Char} (h : c ∈ l) :
    l.contains c = true :=
  List.elem_iff.mpr h

theorem contains_false_of_not_mem {l : List Char} {c : Char} (h : c ∉ l) :
    l.contains c = false := by
  cases hc : l.contains c with
  | false => rfl
  | true => exact absurd (List.elem_iff.mp hc) h

theorem pyIsAlphaS_false_of_digit (day : String) (hday : pyIsDigitS day = true) :
    pyIsAlphaS day = false := by
  obtain ⟨hdne, hdAll⟩ := (pyIsDigitS_iff day).mp hday
  cases ha : pyIsAlphaS day with
  | false => rfl
  | true =>
    exfalso
    obtain ⟨_, hall⟩ := (pyIsAlphaS_iff day).mp ha
    obtain ⟨d0, dt, hd0⟩ : ∃ d0 dt, day.data = d0 :: dt := by
      cases hdd : day.data with
      | nil => exact absurd hdd hdne
      | cons a l => exact ⟨a, l, rfl⟩
    have h1 := hdAll d0 (by rw [hd0]; exact List.mem_cons_self d0 dt)
    have h2 := hall d0 (by rw [hd0]; exact List.mem_cons_self d0 dt)
    rw [not_alpha_of_digit d0 h1] at h2
    simp at h2

/-- The space branch of `generate_date_variants`, day-first orientation. -/
theorem gdv_space_dayfirst_eq (day mp : String)
    (hday : pyIsDigitS day = true) (hmp : pyIsAlphaS mp = true) :
    generate_date_variants (day ++ " " ++ mp) =
      ((day ++ " " ++ mp) :: spaceForms day mp).dedup := by
  obtain ⟨hdne, hdAll⟩ := (pyIsDigitS_iff day).mp hday
  obtain ⟨hmne, hmAll⟩ := (pyIsAlphaS_iff mp).mp hmp
  unfold generate_date_variants
  have hc : (day ++ " " ++ mp).data.contains '-' = false := by
    rw [data_space]
    apply contains_false_of_not_mem
    intro hmem
    rcases List.mem_append.mp hmem with h | h
    · exact not_mem_of_all_class _ _ (all_of_forall_class _ _ hdAll) '-'
        (by decide) h
    · rcases List.mem_cons.mp h with h | h
      · exact absurd h (by decide)
      · exact not_mem_of_all_class _ _ (all_of_forall_class _ _ hmAll) '-'
          (by decide) h
  simp only [hc, Bool.false_eq_true, if_false]
  have hc2 : (day ++ " " ++ mp).data.contains ' ' = true := by
    rw [data_space]
    exact contains_true_of_mem (by simp)
  simp only [hc2, if_true]
  have hrepl : pyReplaceAllS (day ++ " " ++ mp) "," "" = day ++ " " ++ mp := by
    apply pyReplaceAll_comma_id
    rw [data_space]
    intro hmem
    rcases List.mem_append.mp hmem with h | h
    · exact not_mem_of_all_class _ _ (all_of_forall_class _ _ hdAll) ','
        (by decide) h
    · rcases List.mem_cons.mp h with h | h
      · exact absurd h (by decide)
      · exact not_mem_of_all_class _ _ (all_of_forall_class _ _ hmAll) ','
          (by decide) h
  rw [hrepl, pySplitWs_two_words day mp hdne
    (fun x hx => not_space_of_digit x (hdAll x hx)) hmne
    (fun x hx => not_space_of_alpha x (hmAll x hx))]
  have hb1 : (pyIsAlphaS day && pyIsDigitS mp) = false := by
    rw [pyIsAlphaS_false_of_digit day hday, Bool.false_and]
  have hb2 : (pyIsDigitS day && pyIsAlphaS mp) = true := by
    rw [hday, hmp]
    rfl
  simp only [hb1, Bool.false_eq_true, if_false, hb2, if_true]
  rfl

/-- The space branch of `generate_date_variants`, month-first orientation. -/
theorem gdv_space_monthfirst_eq (mp day : String)
    (hmp : pyIsAlphaS mp = true) (hday : pyIsDigitS day = true) :
    generate_date_variants (mp ++ " " ++ day) =
      ((mp ++ " " ++ day) :: spaceForms day mp).dedup := by
  obtain ⟨hdne, hdAll⟩ := (pyIsDigitS_iff day).mp hday
  obtain ⟨hmne, hmAll⟩ := (pyIsAlphaS_iff mp).mp hmp
  unfold generate_date_variants
  have hc : (mp ++ " " ++ day).data.contains '-' = false := by
    rw [data_space]
    apply contains_false_of_not_mem
    intro hmem
    rcases List.mem_append.mp hmem with h | h
    · exact not_mem_of_all_class _ _ (all_of_forall_class _ _ hmAll) '-'
        (by decide) h
    · rcases List.mem_cons.mp h with h | h
      · exact absurd h (by decide)
      · exact not_mem_of_all_class _ _ (all_of_forall_class _ _ hdAll) '-'
          (by decide) h
  simp only [hc, Bool.false_eq_true, if_false]
  have hc2 : (mp ++ " " ++ day).data.contains ' ' = true := by
    rw [data_space]
    exact contains_true_of_mem (by simp)
  simp only [hc2, if_true]
  have hrepl : pyReplaceAllS (mp ++ " " ++ day) "," "" = mp ++ " " ++ day := by
    apply pyReplaceAll_comma_id
    rw [data_space]
    intro hmem
    rcases List.mem_append.mp hmem with h | h
    · exact not_mem_of_all_class _ _ (all_of_forall_class _ _ hmAll) ','
        (by decide) h
    · rcases List.mem_cons.mp h with h | h
      · exact absurd h (by decide)
      · exact not_mem_of_all_class _ _ (all_of_forall_class _ _ hdAll) ','
          (by decide) h
  rw [hrepl, pySplitWs_two_words mp day hmne
    (fun x hx => not_space_of_alpha x (hmAll x hx)) hdne
    (fun x hx => not_space_of_digit x (hdAll x hx))]
  have hb1 : (pyIsAlphaS mp && pyIsDigitS day) = true := by
    rw [hmp, hday]
    rfl
  simp only [hb1, if_true]
  rfl

/-- Facts about every entry of the `month_mappings` table, checked by
computation: each variant is a 3-9 letter lowercase word whose first three
letters are its table key, the key looks the row back up, and capitalizing
a variant preserves all of this. -/
theorem month_table_facts : ∀ pr ∈ month_mappings, ∀ mv ∈ pr.2,
    pyIsAlphaS mv = true ∧ 3 ≤ mv.data.length ∧ mv.data.length ≤ 9 ∧
    toLowerS mv = mv ∧
    String.mk ((toLowerS mv).data.take 3) = pr.1 ∧
    lookupA month_mappings pr.1 = some pr.2 ∧
    pyIsAlphaS (pyCapitalize mv) = true ∧
    3 ≤ (pyCapitalize mv).data.length ∧ (pyCapitalize mv).data.length ≤ 9 ∧
    String.mk ((toLowerS (pyCapitalize mv)).data.take 3) = pr.1 ∧
    toLowerS (pyCapitalize mv) = mv := by
  decide

theorem dayTok_of_pyIsDigit (day : String) (hday : pyIsDigitS day = true)
    (hlen : day.data.length ≤ 2) : DayTok day.data := by
  obtain ⟨h1, h2⟩ := (pyIsDigitS_iff day).mp hday
  exact ⟨h1, hlen, h2⟩

theorem monTok_of_pyIsAlpha (m : String) (hm : pyIsAlphaS m = true)
    (h3 : 3 ≤ m.data.length) (h9 : m.data.length ≤ 9) : MonTok m.data := by
  obtain ⟨h1, h2⟩ := (pyIsAlphaS_iff m).mp hm
  exact ⟨h3, h9, h2⟩

theorem no_hyphen_of_digit (day : String) (hday : pyIsDigitS day = true) :
    '-' ∉ day.data := by
  obtain ⟨h1, h2⟩ := (pyIsDigitS_iff day).mp hday
  exact not_mem_of_all_class _ _ (all_of_forall_class _ _ h2) '-' (by decide)

theorem no_hyphen_of_alpha (m : String) (hm : pyIsAlphaS m = true) :
    '-' ∉ m.data := by
  obtain ⟨h1, h2⟩ := (pyIsAlphaS_iff m).mp hm
  exact not_mem_of_all_class _ _ (all_of_forall_class _ _ h2) '-' (by decide)

/-!
## Claim C2: properties of generate_date_variants
-/

/-- Claim C2 counterexample: the variant set is not idempotent.
`"september 6"` is a variant of `"6-Sept"`, but re-expanding it loses the
canonical forms: `generate_date_variants "september 6"` no longer contains
`"6-Sept"` (the space branch does not consult the month table). -/
theorem c2_counterexample :
    "september 6" ∈ generate_date_variants "6-Sept" ∧
      "6-Sept" ∉ generate_date_variants "september 6" := by
  constructor <;> decide

/-- Claim C2 (corrected): for every date string `d`,
`generate_date_variants d` is non-empty and contains `d` (and the function
is pure and deterministic by construction). Idempotence survives only for
the hyphenated variants: for a recognized month row, every generated
variant `u` is regenerated from any hyphen-form variant `day-mv` or
`day-Mv`; the space-form variants regenerate only their six basic
orderings, so the full idempotence claim fails (see the counterexample). -/
theorem c2_variants_amended :
    (∀ d : String, generate_date_variants d ≠ [] ∧ d ∈ generate_date_variants d) ∧
    (∀ (day month : String) (mvs : List String) (mv : String),
      pyIsDigitS day = true → '-' ∉ month.data →
      lookupA month_mappings
        (String.mk ((toLowerS month).data.take 3)) = some mvs →
      mv ∈ mvs →
      ∀ u ∈ mvs.flatMap (hyphenForms day),
        u ∈ generate_date_variants (day ++ "-" ++ mv) ∧
          u ∈ generate_date_variants (day ++ "-" ++ pyCapitalize mv)) := by
  constructor
  · exact fun d => ⟨gdv_ne_nil d, self_mem_gdv d⟩
  · intro day month mvs mv hday hm hrow hmv u hu
    have hdH : '-' ∉ day.data := no_hyphen_of_digit day hday
    have hpr : (String.mk ((toLowerS month).data.take 3), mvs) ∈ month_mappings :=
      lookupA_mem _ _ _ hrow
    obtain ⟨hmvAlpha, hmv3, hmv9, hmvLower, hmvKey, hmvLookup, hcapAlpha, hcap3,
      hcap9, hcapKey, hcapLower⟩ := month_table_facts _ hpr mv hmv
    have hrow_mv : lookupA month_mappings
        (String.mk ((toLowerS mv).data.take 3)) = some mvs := by
      rw [hmvKey]
      exact hmvLookup
    have hrow_cap : lookupA month_mappings
        (String.mk ((toLowerS (pyCapitalize mv)).data.take 3)) = some mvs := by
      rw [hcapKey]
      exact hmvLookup
    constructor
    · rw [gdv_hyphen_eq day mv mvs hdH (no_hyphen_of_alpha mv hmvAlpha) hrow_mv,
        List.mem_dedup]
      exact List.mem_cons_of_mem _ hu
    · rw [gdv_hyphen_eq day (pyCapitalize mv) mvs hdH
        (no_hyphen_of_alpha _ hcapAlpha) hrow_cap, List.mem_dedup]
      exact List.mem_cons_of_mem _ hu

theorem c2_witness :
    "6 september" ∈ generate_date_variants "6-sept" ∧
      "6 september" ∈ generate_date_variants ("6-" ++ pyCapitalize "sept") :=
  (c2_variants_amended.2 "6" "Sept" ["september", "sept", "sep"] "sept"
    (by decide) (by decide) (by decide) (by decide) "6 september" (by decide))

/-!
## Claim C7: normalize_dates annotation
-/

/-- Claim C7 counterexample: a `Month D` match is annotated with an empty
expansion. `expand_date_formats` only handles the `D-Month` shape, so
`normalize_dates "Sept 6"` produces the empty parenthetical `"Sept 6 ()"`
rather than non-empty synonym forms. -/
theorem c7_counterexample :
    expand_date_formats "Sept 6" = [] ∧ normalize_dates "Sept 6" = "Sept 6 ()" := by
  constructor
  · rfl
  · rfl

/-- Claim C7 (corrected): `normalize_dates` annotates every date-pattern
match `m` inline as `m (f1 | f2 | ...)`, but the expansion list is non-empty
only for matches of the first pattern (`D-Month`): for those it contains the
match itself; for any string the anchored `\d{1,2}-[A-Za-z]{3,9}` prefix
match rejects — in particular every `Month D`, `D/M/YY` and ISO match — the
expansion is empty and the annotation degenerates to `m ()`. -/
theorem c7_normalize_amended :
    (∀ day month : String, DayTok day.data → MonTok month.data →
      expand_date_formats (day ++ "-" ++ month) ≠ [] ∧
        (day ++ "-" ++ month) ∈ expand_date_formats (day ++ "-" ++ month)) ∧
    (∀ s, reMatchStartS tp_p1_core s = false → expand_date_formats s = []) := by
  constructor
  · intro day month hd hm
    have hdH : '-' ∉ day.data :=
      not_mem_of_all_class _ _ (all_of_forall_class _ _ hd.2.2) '-' (by decide)
    have hmH : '-' ∉ month.data :=
      not_mem_of_all_class _ _ (all_of_forall_class _ _ hm.2.2) '-' (by decide)
    have hmatch := reMatchStartS_p1core day month hd hm
    unfold expand_date_formats
    simp only [hmatch, if_true]
    rw [splitOnCharS_hyphen day month hdH hmH]
    dsimp only
    have hmem : (day ++ "-" ++ month) ∈
        ([month ++ " " ++ day, month ++ " " ++ day ++ "th",
          if isPrefixL "sep".data (toLowerS month).data = true
          then "September " ++ day else month ++ " " ++ day,
          day ++ " " ++ month, day ++ "-" ++ month]).dedup := by
      rw [List.mem_dedup]
      simp
    exact ⟨List.ne_nil_of_mem hmem, hmem⟩
  · intro s h
    unfold expand_date_formats
    simp [h]

theorem c7_witness :
    expand_date_formats "6-Sept" ≠ [] ∧ "6-Sept" ∈ expand_date_formats "6-Sept" :=
  c7_normalize_amended.1 "6" "Sept" (by decide) (by decide)

/-!
## Claim C9: chunking short texts
-/

/-- The sentence pieces never out-weigh the input: total piece length plus
piece count is bounded by the input length plus one (each separator removed
at least one character). -/
theorem splitSentGo_len (l : List Char) (p : Option Char) (inSep : Bool)
    (cur : List Char) :
    ((splitSentGo p inSep l cur).map List.length).sum +
        (splitSentGo p inSep l cur).length ≤ cur.length + l.length + 1 := by
  induction l generalizing p inSep cur with
  | nil => simp [splitSentGo]
  | cons c cs ih =>
    rw [splitSentGo]
    by_cases h1 : (inSep && isSpaceChar c) = true
    · rw [if_pos h1]
      have hrec := ih (some c) true cur
      simp only [List.length_cons]
      omega
    · rw [if_neg h1]
      by_cases h2 : (!inSep && isSpaceChar c && (p.map isSentEnd).getD false) = true
      · rw [if_pos h2]
        have hrec := ih (some c) true []
        simp only [List.map_cons, List.sum_cons, List.length_cons,
          List.length_reverse, List.length_nil] at hrec ⊢
        omega
      · rw [if_neg h2]
        have hrec := ih (some c) false (c :: cur)
        simp only [List.length_cons] at hrec ⊢
        omega

theorem splitSentGo_ne_nil (l : List Char) (p : Option Char) (inSep : Bool)
    (cur : List Char) : splitSentGo p inSep l cur ≠ [] := by
  induction l generalizing p inSep cur with
  | nil => simp [splitSentGo]
  | cons c cs ih =>
    rw [splitSentGo]
    by_cases h1 : (inSep && isSpaceChar c) = true
    · rw [if_pos h1]
      exact ih _ _ _
    · rw [if_neg h1]
      by_cases h2 : (!inSep && isSpaceChar c && (p.map isSentEnd).getD false) = true
      · rw [if_pos h2]
        simp
      · rw [if_neg h2]
        exact ih _ _ _

/-- While the running buffer plus the remaining sentences fit in the chunk
size, the loop of `chunk_text_smart` only accumulates: it emits no chunk and
joins every sentence onto the buffer with single spaces. -/
theorem chunk_fold_small (ss : List String) (cur ctx : String)
    (chunk_size overlap : Nat)
    (hbound : cur.data.length + ((ss.map (fun s => s.data.length)).sum +
      ss.length) ≤ chunk_size) :
    ∃ ctx2, ss.foldl (chunkStep chunk_size overlap) ⟨[], cur, ctx⟩ =
      ⟨[], ss.foldl (fun acc s => acc ++ " " ++ s) cur, ctx2⟩ := by
  induction ss generalizing cur ctx with
  | nil => exact ⟨ctx, rfl⟩
  | cons s ss' ih =>
    rw [List.foldl_cons, List.foldl_cons]
    have hcond : ¬ (cur.data.length + s.data.length > chunk_size) := by
      simp only [List.map_cons, List.sum_cons, List.length_cons] at hbound
      omega
    have hstep : chunkStep chunk_size overlap ⟨[], cur, ctx⟩ s =
        ⟨[], cur ++ " " ++ s, if sentenceHasDate s then s else ctx⟩ := by
      unfold chunkStep
      simp only [decide_eq_false hcond, Bool.false_and, Bool.false_eq_true,
        if_false]
    rw [hstep]
    apply ih
    rw [data_space, List.length_append, List.length_cons]
    simp only [List.map_cons, List.sum_cons, List.length_cons] at hbound
    omega

/-- Claim C9 counterexample: for the 9-character input `"Hi.  Bye."` (whose
normalized form is itself), `chunk_text_smart` returns exactly one chunk
`"Hi. Bye."` — but that chunk does not contain the entire normalized text:
the double space between the sentences is collapsed to a single space. -/
theorem c9_counterexample :
    chunk_text_smart "Hi.  Bye." 500 100 = ["Hi. Bye."] ∧
      normalize_dates "Hi.  Bye." = "Hi.  Bye." ∧
      containsSubS "Hi.  Bye." "Hi. Bye." = false := by
  refine ⟨?_, ?_, ?_⟩ <;> rfl

/-- Claim C9 (corrected): for every text whose normalized form is shorter
than the 500-character target, `chunk_text_smart` emits no intermediate
chunk; the result is the single chunk consisting of the normalized text's
sentences re-joined with single spaces and stripped of outer whitespace —
or the empty sequence when that strip is empty (in particular for empty
input). The chunk therefore contains the entire normalized text only when
the inter-sentence whitespace was already single spaces and the text had no
leading or trailing whitespace (see the counterexample). -/
theorem c9_chunk_amended (text : String)
    (hlen : (normalize_dates text).data.length < 500) :
    chunk_text_smart text 500 100 =
      (if (pyStripS ((splitSentences (normalize_dates text)).foldl
            (fun acc s => acc ++ " " ++ s) "")).data.isEmpty = true
       then []
       else [pyStripS ((splitSentences (normalize_dates text)).foldl
            (fun acc s => acc ++ " " ++ s) "")]) := by
  unfold chunk_text_smart
  have h1 := splitSentGo_len (normalize_dates text).data none false []
  have hmap : (splitSentences (normalize_dates text)).map
      (fun s => s.data.length) =
      (splitSentGo none false (normalize_dates text).data []).map List.length := by
    unfold splitSentences
    rw [List.map_map]
    rfl
  have hlen2 : (splitSentences (normalize_dates text)).length =
      (splitSentGo none false (normalize_dates text).data []).length := by
    unfold splitSentences
    rw [List.length_map]
  have hb : ("" : String).data.length +
      (((splitSentences (normalize_dates text)).map
        (fun s => s.data.length)).sum +
        (splitSentences (normalize_dates text)).length) ≤ 500 := by
    rw [hmap, hlen2]
    simp only [List.length_nil] at h1 ⊢
    omega
  obtain ⟨ctx2, hfold⟩ := chunk_fold_small (splitSentences (normalize_dates text))
    "" "" 500 100 hb
  dsimp only
  rw [hfold]
  by_cases he : (pyStripS ((splitSentences (normalize_dates text)).foldl
      (fun acc s => acc ++ " " ++ s) "")).data.isEmpty = true
  · simp [he]
  · simp [he]

theorem c9_witness : chunk_text_smart "Ok." 500 100 = ["Ok."] := by
  rw [c9_chunk_amended "Ok." (by decide)]
  rfl

/-!
## Claim C1: date index round-trip
-/

/-- The list stored for a key in a `defaultdict(list)` index (empty when the
key is absent). -/
def ddLookupList (d : DDict) (k : String) : List String :=
  (lookupA d k).getD []

theorem ddAppend_mem_self (d : DDict) (k v : String) :
    v ∈ ddLookupList (ddAppend d k v) k := by
  induction d with
  | nil => simp [ddAppend, ddLookupList, lookupA]
  | cons p rest ih =>
    obtain ⟨k0, vs⟩ := p
    rw [ddAppend]
    by_cases hk : k0 = k
    · rw [if_pos hk]
      unfold ddLookupList lookupA
      rw [if_pos hk]
      simp
    · rw [if_neg hk]
      unfold ddLookupList lookupA
      rw [if_neg hk]
      exact ih

theorem ddAppend_mem_mono (d : DDict) (k k' v x : String)
    (h : x ∈ ddLookupList d k') : x ∈ ddLookupList (ddAppend d k v) k' := by
  induction d with
  | nil =>
    unfold ddLookupList lookupA at h
    simp at h
  | cons p rest ih =>
    obtain ⟨k0, vs⟩ := p
    rw [ddAppend]
    by_cases hk : k0 = k
    · rw [if_pos hk]
      unfold ddLookupList lookupA at h ⊢
      by_cases hk2 : k0 = k'
      · rw [if_pos hk2] at h ⊢
        simp only [Option.getD_some] at h ⊢
        exact List.mem_append.mpr (Or.inl h)
      · rw [if_neg hk2] at h ⊢
        exact h
    · rw [if_neg hk]
      unfold ddLookupList lookupA at h ⊢
      by_cases hk2 : k0 = k'
      · rw [if_pos hk2] at h ⊢
        exact h
      · rw [if_neg hk2] at h ⊢
        exact ih h

theorem foldl_ddAppend_mono (dates : List String) (di : DDict) (cid : String)
    (k' x : String) (h : x ∈ ddLookupList di k') :
    x ∈ ddLookupList
      (dates.foldl (fun di2 date => ddAppend di2 (toLowerS date) cid) di) k' := by
  induction dates generalizing di with
  | nil => exact h
  | cons d0 rest ih =>
    rw [List.foldl_cons]
    exact ih _ (ddAppend_mem_mono di _ k' cid x h)

theorem foldl_ddAppend_mem (dates : List String) (di : DDict) (cid : String)
    (u : String) (hu : u ∈ dates) :
    cid ∈ ddLookupList
      (dates.foldl (fun di2 date => ddAppend di2 (toLowerS date) cid) di)
      (toLowerS u) := by
  induction dates generalizing di with
  | nil => simp at hu
  | cons d0 rest ih =>
    rw [List.foldl_cons]
    rcases List.mem_cons.mp hu with he | hm
    · subst he
      exact foldl_ddAppend_mono rest _ cid _ cid (ddAppend_mem_self di _ cid)
    · exact ih _ hm

/-- After `index_chunk`, every extracted date variant's lowercased key maps
to a list containing the chunk's id. -/
theorem index_chunk_date_mem (e : HybridSearchEngine) (chunk : Chunk)
    (u : String) (hu : u ∈ extract_dates chunk.content) :
    chunk.chunk_id ∈
      ddLookupList (e.index_chunk chunk).date_index (toLowerS u) := by
  unfold HybridSearchEngine.index_chunk
  dsimp only
  exact foldl_ddAppend_mem _ _ _ _ hu

theorem sbdInner_fst_mono (st : List String × DDict) (v x : String)
    (h : x ∈ st.1) : x ∈ (sbdInner st v).1 := by
  unfold sbdInner
  by_cases hc : containsKeyA st.2 (toLowerS v) = true
  · simp only [hc, if_true]
    exact List.mem_append.mpr (Or.inl h)
  · simp only [hc, Bool.false_eq_true, if_false]
    exact h

theorem foldl_sbdInner_fst_mono (l : List String) (st : List String × DDict)
    (x : String) (h : x ∈ st.1) : x ∈ (l.foldl sbdInner st).1 := by
  induction l generalizing st with
  | nil => exact h
  | cons v vs ih => exact ih _ (sbdInner_fst_mono st v x h)

theorem foldl_sbdInner_hit (l : List String) (st : List String × DDict)
    (u x : String) (hu : u ∈ l)
    (hlk : x ∈ ddLookupList st.2 (toLowerS u)) :
    x ∈ (l.foldl sbdInner st).1 := by
  induction l generalizing st with
  | nil => simp at hu
  | cons v vs ih =>
    rw [List.foldl_cons]
    rcases List.mem_cons.mp hu with he | hm
    · subst he
      apply foldl_sbdInner_fst_mono
      unfold sbdInner
      have hc : containsKeyA st.2 (toLowerS u) = true := by
        unfold containsKeyA
        unfold ddLookupList at hlk
        cases hc2 : lookupA st.2 (toLowerS u) with
        | none => rw [hc2] at hlk; simp at hlk
        | some vs2 => rfl
      simp only [hc, if_true]
      apply List.mem_append.mpr
      right
      unfold ddGetItem
      unfold ddLookupList at hlk
      cases hc2 : lookupA st.2 (toLowerS u) with
      | none => rw [hc2] at hlk; simp at hlk
      | some vs2 =>
        rw [hc2] at hlk
        simpa using hlk
    · apply ih _ hm
      rw [sbdInner_snd]
      exact hlk

theorem foldl_sbdOuter_fst_mono (l : List String) (st : List String × DDict)
    (x : String) (h : x ∈ st.1) : x ∈ (l.foldl sbdOuter st).1 := by
  induction l generalizing st with
  | nil => exact h
  | cons t ts ih => exact ih _ (foldl_sbdInner_fst_mono _ st x h)

theorem foldl_sbdOuter_hit (found : List String) (st : List String × DDict)
    (t u x : String) (ht : t ∈ found) (hu : u ∈ generate_date_variants t)
    (hlk : x ∈ ddLookupList st.2 (toLowerS u)) :
    x ∈ (found.foldl sbdOuter st).1 := by
  induction found generalizing st with
  | nil => simp at ht
  | cons f fs ih =>
    rw [List.foldl_cons]
    rcases List.mem_cons.mp ht with he | hm
    · subst he
      exact foldl_sbdOuter_fst_mono fs _ x (foldl_sbdInner_hit _ st u x hu hlk)
    · apply ih _ hm
      rw [sbdOuter_snd]
      exact hlk

/-- One good extracted term with one indexed variant makes `search_by_date`
report the chunk. -/
theorem search_by_date_hit (e : HybridSearchEngine) (q t u cid : String)
    (ht : t ∈ hsQueryDates q) (hu : u ∈ generate_date_variants t)
    (hlk : cid ∈ ddLookupList e.date_index (toLowerS u)) :
    cid ∈ e.search_by_date q := by
  unfold HybridSearchEngine.search_by_date HybridSearchEngine.searchByDateState
  dsimp only
  have hne : (hsQueryDates q).isEmpty = false := by
    rw [List.isEmpty_eq_false]
    exact List.ne_nil_of_mem ht
  simp only [hne, Bool.false_eq_true, if_false]
  rw [List.mem_dedup]
  exact foldl_sbdOuter_hit _ _ t u cid ht hu hlk

theorem mem_hsQueryDates_of_p1 (q v : String) (h : reFindAllS hs_p1 q = [v]) :
    v ∈ hsQueryDates q := by
  unfold hsQueryDates
  exact List.mem_append.mpr (Or.inl (List.mem_append.mpr (Or.inl
    (List.mem_append.mpr (Or.inl (List.mem_append.mpr (Or.inl
      (by rw [h]; exact List.mem_cons_self v []))))))))

theorem mem_hsQueryDates_of_p2 (q v : String) (h : reFindAllS hs_p2 q = [v]) :
    v ∈ hsQueryDates q := by
  unfold hsQueryDates
  exact List.mem_append.mpr (Or.inl (List.mem_append.mpr (Or.inl
    (List.mem_append.mpr (Or.inl (List.mem_append.mpr (Or.inr
      (by rw [h]; exact List.mem_cons_self v []))))))))

theorem mem_hsQueryDates_of_q3 (q v : String) (h : reFindAllS hs_q3 q = [v]) :
    v ∈ hsQueryDates q := by
  unfold hsQueryDates
  exact List.mem_append.mpr (Or.inl (List.mem_append.mpr (Or.inl
    (List.mem_append.mpr (Or.inr (by rw [h]; exact List.mem_cons_self v []))))))

/-- Claim C1 counterexample: the round-trip fails as stated. First facet:
a chunk containing the slash date `6/9/2024` (matched by the third indexing
pattern) is indexed, the query phrase contains that very date string (a
variant of itself), yet `search_by_date` returns the empty list — the query
extractor has no slash pattern. Second facet: a query phrase containing the
variant `6-Sept` embedded in word characters (`x6-Sept`) also returns
nothing, because the extraction patterns require word boundaries. -/
theorem c1_counterexample :
    "6/9/2024" ∈ extractDatesRaw "Meeting 6/9/2024" ∧
      "6/9/2024" ∈ generate_date_variants "6/9/2024" ∧
      containsSubS "6/9/2024" "what happened on 6/9/2024" = true ∧
      (HybridSearchEngine.init.index_chunk
        ⟨"c0", "doc", "Meeting 6/9/2024", [], 0⟩).search_by_date
        "what happened on 6/9/2024" = [] ∧
      containsSubS "6-Sept" "x6-Sept" = true ∧
      (HybridSearchEngine.init.index_chunk
        ⟨"c0", "doc", "6-Sept: ok", [], 0⟩).search_by_date "x6-Sept" = [] := by
  refine ⟨?_, ?_, ?_, ?_, ?_, ?_⟩ <;> decide

/-- Claim C1 (corrected): the round-trip holds for hyphen-form dates with a
recognized month. For every chunk from whose content the indexing patterns
extract a date `d = day-month` (1-2 digit day, 3-9 letter month found in the
month table), after `index_chunk(chunk)` a `search_by_date` query consisting
of any variant of `d` returns a set containing the chunk's id. The original
universal fails for slash dates (`D/M/YY` is extractable at indexing time
but no query pattern matches it) and for variants embedded in word
characters (the query patterns require word boundaries) — see the
counterexample. -/
theorem c1_roundtrip_amended (e : HybridSearchEngine) (chunk : Chunk)
    (day month : String) (mvs : List String)
    (hday : pyIsDigitS day = true) (hdaylen : day.data.length ≤ 2)
    (hmonA : pyIsAlphaS month = true) (hmon3 : 3 ≤ month.data.length)
    (hmon9 : month.data.length ≤ 9)
    (hrow : lookupA month_mappings
      (String.mk ((toLowerS month).data.take 3)) = some mvs)
    (hd : (day ++ "-" ++ month) ∈ extractDatesRaw chunk.content)
    (v : String) (hv : v ∈ generate_date_variants (day ++ "-" ++ month)) :
    chunk.chunk_id ∈ (e.index_chunk chunk).search_by_date v := by
  have hdTok : DayTok day.data := dayTok_of_pyIsDigit day hday hdaylen
  have hmTok : MonTok month.data := monTok_of_pyIsAlpha month hmonA hmon3 hmon9
  have hdH : '-' ∉ day.data := no_hyphen_of_digit day hday
  have hmH : '-' ∉ month.data := no_hyphen_of_alpha month hmonA
  have hgdv := gdv_hyphen_eq day month mvs hdH hmH hrow
  have hidx : ∀ u ∈ generate_date_variants (day ++ "-" ++ month),
      chunk.chunk_id ∈
        ddLookupList (e.index_chunk chunk).date_index (toLowerS u) := by
    intro u hu
    apply index_chunk_date_mem
    unfold extract_dates
    rw [List.mem_dedup]
    exact List.mem_flatMap.mpr ⟨_, hd, hu⟩
  rw [hgdv, List.mem_dedup] at hv
  rcases List.mem_cons.mp hv with hveq | hvX
  · subst hveq
    exact search_by_date_hit _ _ _ _ _
      (mem_hsQueryDates_of_p1 _ _ (reFindAllS_p1 day month hdTok hmTok))
      (self_mem_gdv _) (hidx _ (self_mem_gdv _))
  · obtain ⟨mv, hmv, hvf⟩ := List.mem_flatMap.mp hvX
    have hpr := lookupA_mem _ _ _ hrow
    obtain ⟨hmvAlpha, hmv3, hmv9, hmvLower, hmvKey, hmvLookup, hcapAlpha, hcap3,
      hcap9, hcapKey, hcapLower⟩ := month_table_facts _ hpr mv hmv
    have hmvTok : MonTok mv.data := monTok_of_pyIsAlpha mv hmvAlpha hmv3 hmv9
    have hcapTok : MonTok (pyCapitalize mv).data :=
      monTok_of_pyIsAlpha _ hcapAlpha hcap3 hcap9
    have hrow_mv : lookupA month_mappings
        (String.mk ((toLowerS mv).data.take 3)) = some mvs := by
      rw [hmvKey]
      exact hmvLookup
    have hrow_cap : lookupA month_mappings
        (String.mk ((toLowerS (pyCapitalize mv)).data.take 3)) = some mvs := by
      rw [hcapKey]
      exact hmvLookup
    have huGdvD : (day ++ "-" ++ mv) ∈
        generate_date_variants (day ++ "-" ++ month) := by
      rw [hgdv, List.mem_dedup]
      apply List.mem_cons_of_mem
      exact List.mem_flatMap.mpr
        ⟨mv, hmv, by unfold hyphenForms; exact List.mem_cons_self _ _⟩
    have hlk := hidx _ huGdvD
    simp only [hyphenForms, List.mem_cons, List.not_mem_nil, or_false] at hvf
    rcases hvf with h1 | h2 | h3 | h4 | h5 | h6
    · subst h1
      exact search_by_date_hit _ _ _ _ _
        (mem_hsQueryDates_of_p1 _ _ (reFindAllS_p1 day mv hdTok hmvTok))
        (self_mem_gdv _) hlk
    · subst h2
      apply search_by_date_hit _ _ (day ++ " " ++ mv) (day ++ "-" ++ mv)
      · exact mem_hsQueryDates_of_q3 _ _ (reFindAllS_q3 day mv hdTok hmvTok)
      · rw [gdv_space_dayfirst_eq day mv hday hmvAlpha, List.mem_dedup]
        apply List.mem_cons_of_mem
        unfold spaceForms
        exact List.mem_cons_self _ _
      · exact hlk
    · subst h3
      apply search_by_date_hit _ _ (mv ++ " " ++ day) (day ++ "-" ++ mv)
      · exact mem_hsQueryDates_of_p2 _ _ (reFindAllS_p2 mv day hmvTok hdTok)
      · rw [gdv_space_monthfirst_eq mv day hmvAlpha hday, List.mem_dedup]
        apply List.mem_cons_of_mem
        unfold spaceForms
        exact List.mem_cons_self _ _
      · exact hlk
    · subst h4
      apply search_by_date_hit _ _ (day ++ "-" ++ pyCapitalize mv)
        (day ++ "-" ++ mv)
      · exact mem_hsQueryDates_of_p1 _ _
          (reFindAllS_p1 day (pyCapitalize mv) hdTok hcapTok)
      · rw [gdv_hyphen_eq day (pyCapitalize mv) mvs hdH
          (no_hyphen_of_alpha _ hcapAlpha) hrow_cap, List.mem_dedup]
        apply List.mem_cons_of_mem
        exact List.mem_flatMap.mpr
          ⟨mv, hmv, by unfold hyphenForms; exact List.mem_cons_self _ _⟩
      · exact hlk
    · subst h5
      apply search_by_date_hit _ _ (day ++ " " ++ pyCapitalize mv)
        (day ++ "-" ++ mv)
      · exact mem_hsQueryDates_of_q3 _ _
          (reFindAllS_q3 day (pyCapitalize mv) hdTok hcapTok)
      · rw [gdv_space_dayfirst_eq day (pyCapitalize mv) hday hcapAlpha,
          List.mem_dedup]
        apply List.mem_cons_of_mem
        unfold spaceForms
        rw [hcapLower]
        exact List.mem_cons_of_mem _ (List.mem_cons_of_mem _
          (List.mem_cons_of_mem _ (List.mem_cons_self _ _)))
      · exact hlk
    · subst h6
      apply search_by_date_hit _ _ (pyCapitalize mv ++ " " ++ day)
        (day ++ "-" ++ mv)
      · exact mem_hsQueryDates_of_p2 _ _
          (reFindAllS_p2 (pyCapitalize mv) day hcapTok hdTok)
      · rw [gdv_space_monthfirst_eq (pyCapitalize mv) day hcapAlpha hday,
          List.mem_dedup]
        apply List.mem_cons_of_mem
        unfold spaceForms
        rw [hcapLower]
        exact List.mem_cons_of_mem _ (List.mem_cons_of_mem _
          (List.mem_cons_of_mem _ (List.mem_cons_self _ _)))
      · exact hlk

theorem c1_witness :
    "c0" ∈ (HybridSearchEngine.init.index_chunk
      ⟨"c0", "Report", "6-Sept: Circulated WBM.", [], 0⟩).search_by_date
      "september 6" :=
  c1_roundtrip_amended HybridSearchEngine.init
    ⟨"c0", "Report", "6-Sept: Circulated WBM.", [], 0⟩ "6" "Sept"
    ["september", "sept", "sep"] (by decide) (by decide) (by decide)
    (by decide) (by decide) (by decide) (by decide) "september 6" (by decide)

end RAGQuery
